import Mathlib

/-!
Verification of the Orion embedded vector database engine
(`src/database.cpp`, public header `include/orion/database.h`).

The development is a shallow embedding of the engine:

* The binary codec (`write_binary`, `read_binary`, `write_string`,
  `read_string`, `write_metadata_value`, `read_metadata_value`,
  `write_config`, `read_config`) is modelled at the byte level.
  `std::ostream::write` of a fixed-width value emits the raw in-memory
  representation of the value, so the emitted byte order depends on the
  endianness of the host; the model makes that dependence explicit with an
  `Endian` parameter.
* Bytes are `Nat` below 256, fixed-width machine integers are `Nat`
  (reduced modulo 2 ^ width where the code can overflow), `int64_t`
  metadata values are `Int`, and IEEE floating point payloads are carried
  as their raw bit patterns (a `float` is a 4-byte pattern, a `double` an
  8-byte pattern); the engine never computes with float values, it only
  stores and transports them, so the bit-pattern view is lossless.
* `std::map` and `std::set` become association lists and `Finset Nat`.
* The HNSW graph index (`hnswlib`) is an external dependency, not part of
  this repository; it is modelled from the specification's GraphIndex
  contract (see `Hnsw.addPoint` below), and graph search is an opaque
  parameter (`SearchFn`) of the query operations.
* Fallible operations return `Option` / `Bool` exactly where the source
  returns error codes or catches exceptions.
-/

set_option maxRecDepth 4096

namespace Orion

/-- Host endianness. `write_binary` in the source emits the raw in-memory
bytes of a value, so the wire order is the host order. -/
inductive Endian where
  | little
  | big
deriving DecidableEq

/-- Little-endian byte decomposition of a natural number into `w` bytes
(the value is implicitly reduced modulo `256 ^ w`, as a fixed-width store
does). -/
def leBytes : Nat → Nat → List Nat
  | 0, _ => []
  | w + 1, v => v % 256 :: leBytes w (v / 256)

/-- Recompose a little-endian byte list into a natural number. -/
def leVal : List Nat → Nat
  | [] => 0
  | b :: rest => b + 256 * leVal rest

/-- `write_binary` (source line 28): raw fixed-width store of an integral
value, in host byte order. `w` is `sizeof(T)`. -/
def write_binary (e : Endian) (w v : Nat) : List Nat :=
  match e with
  | .little => leBytes w v
  | .big => (leBytes w v).reverse

/-- Recompose `w` host-order bytes into a value, as a raw fixed-width load
does. -/
def hostVal (e : Endian) (bs : List Nat) : Nat :=
  match e with
  | .little => leVal bs
  | .big => leVal bs.reverse

/-- Split `w` leading bytes off a stream; `none` models a short read. -/
def takeBytes (w : Nat) (bs : List Nat) : Option (List Nat × List Nat) :=
  if w ≤ bs.length then some (bs.take w, bs.drop w) else none

/-- `read_binary` (source line 30): raw fixed-width load of `w` bytes in
host order. -/
def read_binary (e : Endian) (w : Nat) (bs : List Nat) : Option (Nat × List Nat) :=
  match takeBytes w bs with
  | none => none
  | some (pre, rest) => some (hostVal e pre, rest)

/-- A `std::string` is a byte string. -/
abbrev Str := List Nat

/-- `write_string` (source line 33): `uint64` length then the raw bytes. -/
def write_string (e : Endian) (s : Str) : List Nat :=
  write_binary e 8 s.length ++ s

/-- `read_string` (source line 41): read the `uint64` length, then exactly
that many bytes; a short read throws, modelled as `none`. -/
def read_string (e : Endian) (bs : List Nat) : Option (Str × List Nat) :=
  match read_binary e 8 bs with
  | none => none
  | some (len, rest) =>
      match takeBytes len rest with
      | none => none
      | some (s, rest1) => some (s, rest1)

/-- `MetadataValue` (`std::variant<int64_t, double, std::string>`): the
`double` payload is carried as its raw 8-byte bit pattern. -/
inductive MetaVal where
  | vInt (v : Int)
  | vFloat (bits : Nat)
  | vStr (s : Str)
deriving DecidableEq

/-- Two's-complement image of an `int64_t` value as a `uint64` bit pattern. -/
def intToU64 (v : Int) : Nat := (v % (2 ^ 64 : Int)).toNat

/-- Read back an `int64_t` from its `uint64` bit pattern. -/
def u64ToInt (n : Nat) : Int :=
  if n < 2 ^ 63 then (n : Int) else (n : Int) - 2 ^ 64

/-- `write_metadata_value` (source line 71): explicit `uint8` type tag
(0 = `int64_t`, 1 = `double`, 2 = string) followed by the payload. -/
def write_metadata_value (e : Endian) : MetaVal → List Nat
  | .vInt v => 0 :: write_binary e 8 (intToU64 v)
  | .vFloat bits => 1 :: write_binary e 8 bits
  | .vStr s => 2 :: write_string e s

/-- `read_metadata_value` (source line 94): dispatch on the tag byte; an
unknown tag throws (`none`). -/
def read_metadata_value (e : Endian) (bs : List Nat) : Option (MetaVal × List Nat) :=
  match bs with
  | [] => none
  | tag :: rest =>
      if tag = 0 then
        match read_binary e 8 rest with
        | none => none
        | some (n, rest1) => some (.vInt (u64ToInt n), rest1)
      else if tag = 1 then
        match read_binary e 8 rest with
        | none => none
        | some (n, rest1) => some (.vFloat n, rest1)
      else if tag = 2 then
        match read_string e rest with
        | none => none
        | some (s, rest1) => some (.vStr s, rest1)
      else none

/-- Value-level well-formedness dictated by the C++ types: `int64_t`
payloads fit in 64 signed bits, `double` bit patterns in 64 bits, string
bytes in 8 bits with a `size_t` length. -/
def WFVal : MetaVal → Prop
  | .vInt v => -(2 ^ 63) ≤ v ∧ v < 2 ^ 63
  | .vFloat bits => bits < 2 ^ 64
  | .vStr s => s.length < 2 ^ 64 ∧ ∀ b ∈ s, b < 256

instance : DecidablePred WFVal := by
  intro v
  cases v <;> simp [WFVal] <;> infer_instance

/-- `Config` (public header): `vector_dim : uint32`, `max_elements : uint64`. -/
structure Config where
  vector_dim : Nat
  max_elements : Nat
deriving DecidableEq

/-- `write_config` (source line 55). -/
def write_config (e : Endian) (cfg : Config) : List Nat :=
  write_binary e 4 cfg.vector_dim ++ write_binary e 8 cfg.max_elements

/-- `read_config` (source line 62). -/
def read_config (e : Endian) (bs : List Nat) : Option (Config × List Nat) :=
  match read_binary e 4 bs with
  | none => none
  | some (dim, rest) =>
      match read_binary e 8 rest with
      | none => none
      | some (maxel, rest1) => some (⟨dim, maxel⟩, rest1)

/-! Association-list counterparts of `std::map`.  `insertA` is
`map[k] = v` (replace in place or append), `eraseA` is `map.erase(k)`,
`lookupA` is `map.find(k)`. -/

/-- Lookup in an association list. -/
def lookupA {α β : Type} [DecidableEq α] : List (α × β) → α → Option β
  | [], _ => none
  | (k, v) :: rest, a => if k = a then some v else lookupA rest a

/-- `map[k] = v`: replace the mapped value in place, or append a fresh
entry. -/
def insertA {α β : Type} [DecidableEq α] : List (α × β) → α → β → List (α × β)
  | [], a, b => [(a, b)]
  | (k, v) :: rest, a, b =>
      if k = a then (a, b) :: rest else (k, v) :: insertA rest a b

/-- `map.erase(k)` (at most one entry per key is ever present). -/
def eraseA {α β : Type} [DecidableEq α] : List (α × β) → α → List (α × β)
  | [], _ => []
  | (k, v) :: rest, a => if k = a then rest else (k, v) :: eraseA rest a

/-- `map.emplace(k, v)`: insert only when the key is absent. -/
def emplaceA {α β : Type} [DecidableEq α] (l : List (α × β)) (a : α) (b : β) :
    List (α × β) :=
  match lookupA l a with
  | some _ => l
  | none => insertA l a b

/-- `VectorId` is `uint64_t`. -/
abbrev VectorId := Nat

/-- `Vector` is `std::vector<float>`; each element is carried as its raw
4-byte bit pattern. -/
abbrev Vec := List Nat

/-- `Metadata` is `std::map<std::string, MetadataValue>`. -/
abbrev MetadataL := List (Str × MetaVal)

/-- `Database::Impl::VectorData` (source line 124). -/
structure VectorData where
  vector : Vec
  metadata : MetadataL
deriving DecidableEq

/-- `Database::Impl::InvertedIndex` (source line 129):
`std::map<std::string, std::map<MetadataValue, std::set<VectorId>>>`. -/
abbrev InvIndex := List (Str × List (MetaVal × Finset Nat))

/-- One label slot of the graph index: label, stored vector payload, and
the logical-delete flag. -/
structure HnswSlot where
  label : VectorId
  vec : Vec
  deleted : Bool
deriving DecidableEq

/-- Modelled from the spec: the GraphIndex (HNSW) black box of section 4.4.
`hnswlib` is an external dependency, not part of this repository, so the
index is modelled as its observable label state: a fixed capacity and the
ordered list of label slots (live or logically deleted).  Logically
deleted slots still occupy capacity. -/
structure HnswState where
  capacity : Nat
  slots : List HnswSlot
deriving DecidableEq

/-- A fresh `HierarchicalNSW` of the given capacity (`max_elements`). -/
def Hnsw.init (cap : Nat) : HnswState := ⟨cap, []⟩

/-- Modelled from the spec: `add_point(vector, label)` of the GraphIndex
contract (section 4.4).  It fails with capacity-exceeded when the
structure is full and the label is new; re-adding an existing label
(including after `mark_delete`, which the contract allows) updates the
stored vector in place and revives the slot.  `none` is the
capacity-exceeded failure. -/
def Hnsw.addPoint (h : HnswState) (v : Vec) (label : VectorId) : Option HnswState :=
  if h.slots.any (fun s => s.label == label) then
    some { h with
      slots := h.slots.map fun s =>
        if s.label == label then { s with vec := v, deleted := false } else s }
  else if h.capacity ≤ h.slots.length then
    none
  else
    some { h with slots := h.slots ++ [⟨label, v, false⟩] }

/-- Modelled from the spec: `mark_delete(label)` — soft delete.  An unknown
label raises an exception in the library, but both call sites in the
engine swallow it, so the composite operation is a plain
update-if-present. -/
def Hnsw.markDelete (h : HnswState) (label : VectorId) : HnswState :=
  { h with
    slots := h.slots.map fun s =>
      if s.label == label then { s with deleted := true } else s }

/-- The slot currently holding `label`, if any. -/
def Hnsw.lookupSlot (h : HnswState) (label : VectorId) : Option HnswSlot :=
  h.slots.find? (fun s => s.label == label)

/-- `QueryResult` (public header): id plus squared-L2 distance, the latter
carried as a `float` bit pattern. -/
structure QueryResult where
  id : VectorId
  distance : Nat
deriving DecidableEq

/-- The graph search (`searchKnn`) is treated as a black box: any function
of the index state, the query vector, `k`, and the eligibility predicate.
The engine theorems hold for every such function. -/
abbrev SearchFn := HnswState → Vec → Nat → (VectorId → Bool) → List QueryResult

/-- The state owned by `Database::Impl` (source line 121): config, primary
store, inverted metadata index, and the HNSW index. -/
structure ImplState where
  config : Config
  storage : List (VectorId × VectorData)
  metadata_index : InvIndex
  hnsw : HnswState
deriving DecidableEq

/-- The engine state produced by `Impl::Impl(path, cfg)` (source line 139):
empty stores and a fresh index of capacity `cfg.max_elements`. -/
def Impl.create (cfg : Config) : ImplState :=
  ⟨cfg, [], [], Hnsw.init cfg.max_elements⟩

/-- One step of `remove_from_metadata_index` (source lines 152-167): remove
`id` from the posting list of `(key, value)`, erasing the inner entry when
its id set becomes empty and the outer entry when the inner map becomes
empty. -/
def removePosting (idx : InvIndex) (key : Str) (value : MetaVal) (id : VectorId) :
    InvIndex :=
  match lookupA idx key with
  | none => idx
  | some inner =>
      let inner' :=
        match lookupA inner value with
        | none => inner
        | some s =>
            let s' := s.erase id
            if s' = ∅ then eraseA inner value else insertA inner value s'
      if inner' = [] then eraseA idx key else insertA idx key inner'

/-- `Database::Impl::remove_from_metadata_index` (source line 147): purge
`id` from every posting list named by its stored metadata. -/
def Impl.remove_from_metadata_index (st : ImplState) (id : VectorId) : InvIndex :=
  match lookupA st.storage id with
  | none => st.metadata_index
  | some vd =>
      vd.metadata.foldl (fun idx kv => removePosting idx kv.1 kv.2 id)
        st.metadata_index

/-- `metadata_index[key][value].insert(id)` (source line 507): nested
`operator[]` default-constructs missing entries. -/
def addPosting (idx : InvIndex) (key : Str) (value : MetaVal) (id : VectorId) :
    InvIndex :=
  let inner := (lookupA idx key).getD []
  let s := (lookupA inner value).getD ∅
  insertA idx key (insertA inner value (insert id s))

/-- The posting loop of `add` (source lines 505-508). -/
def addPostings (idx : InvIndex) (meta : MetadataL) (id : VectorId) : InvIndex :=
  meta.foldl (fun i kv => addPosting i kv.1 kv.2 id) idx

/-- The re-insertion loop of `rebuild_index` (source lines 179-182), with
the library's possible failures propagated. -/
def reinsertAllE (h : HnswState) (stor : List (VectorId × VectorData)) :
    Option HnswState :=
  stor.foldlM (fun acc kv => Hnsw.addPoint acc kv.2.vector kv.1) h

/-- `Database::Impl::rebuild_index` (source line 171): build a fresh index
of the new capacity, re-insert every stored vector, and on success swap it
in and record the new capacity in the config.  `alloc` models whether the
allocation of the fresh index succeeds (`std::bad_alloc` is environmental);
`none` is the caught-exception path that leaves the old index in place. -/
def Impl.rebuild_index (st : ImplState) (alloc : Bool) (new_max : Nat) :
    Option ImplState :=
  if alloc then
    match reinsertAllE (Hnsw.init new_max) st.storage with
    | some h =>
        some { st with
          hnsw := h
          config := { st.config with max_elements := new_max } }
    | none => none
  else none

/-- `Database::Impl::add` (source line 460).  Returns the `bool` result
and the post-call state.  Steps, as in the source: reject a wrong
dimension; if the id exists, purge its postings and soft-delete its graph
label; overwrite the primary store; `addPoint`; on failure rebuild with
capacity `max(max_elements * 2, storage.size() + 10)` and retry once; on
overall success insert the new postings. -/
def Impl.add (alloc : Bool) (st : ImplState) (id : VectorId) (vec : Vec)
    (meta : MetadataL) : Bool × ImplState :=
  if vec.length ≠ st.config.vector_dim then (false, st)
  else
    let st1 : ImplState :=
      if (lookupA st.storage id).isSome then
        { st with
          metadata_index := Impl.remove_from_metadata_index st id
          hnsw := Hnsw.markDelete st.hnsw id }
      else st
    let st2 : ImplState := { st1 with storage := insertA st1.storage id ⟨vec, meta⟩ }
    match Hnsw.addPoint st2.hnsw vec id with
    | some h =>
        (true, { st2 with
          hnsw := h
          metadata_index := addPostings st2.metadata_index meta id })
    | none =>
        let proposed := max (st2.config.max_elements * 2) (st2.storage.length + 10)
        match Impl.rebuild_index st2 alloc proposed with
        | none => (false, st2)
        | some st3 =>
            match Hnsw.addPoint st3.hnsw vec id with
            | some h2 =>
                (true, { st3 with
                  hnsw := h2
                  metadata_index := addPostings st3.metadata_index meta id })
            | none => (false, st3)

/-- `Database::Impl::remove` (source line 598). -/
def Impl.remove (st : ImplState) (id : VectorId) : Bool × ImplState :=
  if (lookupA st.storage id).isNone then (false, st)
  else
    (true, { st with
      metadata_index := Impl.remove_from_metadata_index st id
      hnsw := Hnsw.markDelete st.hnsw id
      storage := eraseA st.storage id })

/-- `Database::Impl::get` (source line 589). -/
def Impl.get (st : ImplState) (id : VectorId) : Option (Vec × MetadataL) :=
  (lookupA st.storage id).map fun vd => (vd.vector, vd.metadata)

/-- `Database::Impl::count` (source line 616). -/
def Impl.count (st : ImplState) : Nat := st.storage.length

/-- `Database::Impl::query` without filter (source line 512): wrong query
length or empty storage yields the empty list, otherwise the graph search
runs with every label eligible. -/
def Impl.query (s : SearchFn) (st : ImplState) (q : Vec) (n : Nat) :
    List QueryResult :=
  if q.length ≠ st.config.vector_dim ∨ st.storage = [] then []
  else s st.hnsw q n (fun _ => true)

/-- The candidate-set loop of the filtered `query` (source lines 535-560):
walk the filter clauses, looking up each posting list (`none` on a missing
key or value models the early `return` of the empty result), seeding the
candidate set from the first clause and intersecting afterwards, with an
early empty-intersection exit. -/
def Impl.queryFilterLoop (idx : InvIndex) :
    List (Str × MetaVal) → Bool → Finset Nat → Option (Finset Nat)
  | [], _, acc => some acc
  | (k, v) :: rest, first, acc =>
      match lookupA idx k with
      | none => none
      | some inner =>
          match lookupA inner v with
          | none => none
          | some ids =>
              let acc' := if first then ids else acc ∩ ids
              if acc' = ∅ then none
              else Impl.queryFilterLoop idx rest false acc'

/-- `Database::Impl::query` with filter (source line 529).  An empty filter
delegates to the unfiltered overload; note that this overload performs no
dimension check of its own.  When candidates survive, the graph search
runs with the candidate set as the eligibility predicate. -/
def Impl.queryF (s : SearchFn) (st : ImplState) (q : Vec) (n : Nat)
    (filter : MetadataL) : List QueryResult :=
  if filter = [] then Impl.query s st q n
  else
    match Impl.queryFilterLoop st.metadata_index filter true ∅ with
    | none => []
    | some cand => s st.hnsw q n (fun l => decide (l ∈ cand))

/-! ## Persistence: `Impl::save` (source line 197) and `Impl::load`
(source line 329), at the byte level.

`save` writes the main database file (magic, format version, config,
primary store, framed inverted-index blob) and, via the HNSW serializer
plus a rename, a persistent sibling file `path + ".hnsw"` holding the
graph index.  The sibling artifact is modelled as the opaque `HnswState`
snapshot.  I/O failures (unopenable file, failed rename) abort `save`
with `false` and are environmental; the model captures the bytes that a
successful save commits. -/

/-- The 8-byte magic `"ORIONDB1"` written at source line 214. -/
def oriondb1Magic : List Nat := [79, 82, 73, 79, 78, 68, 66, 49]

/-- The magic `"ORIONDB2"` of the format-v2 artifact described by the
specification (not produced by this code). -/
def oriondb2Magic : List Nat := [79, 82, 73, 79, 78, 68, 66, 50]

/-- Vector payload framing (source lines 229-232): `uint64` length then the
raw 4-byte float patterns in order. -/
def writeVec (e : Endian) (v : Vec) : List Nat :=
  write_binary e 8 v.length ++ (v.map (write_binary e 4)).flatten

/-- Metadata framing (source lines 235-241): `uint64` pair count then
`(string key, tagged value)` pairs in map order. -/
def writeMeta (e : Endian) (m : MetadataL) : List Nat :=
  write_binary e 8 m.length ++
    (m.map fun kv => write_string e kv.1 ++ write_metadata_value e kv.2).flatten

/-- One primary-store record (source lines 226-241). -/
def writeEntry (e : Endian) (kv : VectorId × VectorData) : List Nat :=
  write_binary e 8 kv.1 ++ writeVec e kv.2.vector ++ writeMeta e kv.2.metadata

/-- The primary-store section (source lines 222-242): `uint64` record count
then the records in map order. -/
def writeStorage (e : Endian) (stor : List (VectorId × VectorData)) : List Nat :=
  write_binary e 8 stor.length ++ (stor.map (writeEntry e)).flatten

/-- Insert a value into a sorted list, keeping it sorted. -/
def insSorted (x : Nat) : List Nat → List Nat
  | [] => [x]
  | y :: ys => if x ≤ y then x :: y :: ys else y :: insSorted x ys

/-- Insertion sort (kernel-reducible, unlike merge sort). -/
def insertionSort : List Nat → List Nat
  | [] => []
  | x :: xs => insSorted x (insertionSort xs)

theorem perm_insSorted (x : Nat) (l : List Nat) :
    (insSorted x l).Perm (x :: l) := by
  induction l with
  | nil => simp [insSorted]
  | cons y ys ih =>
      by_cases h : x ≤ y
      · simp [insSorted, h]
      · rw [insSorted, if_neg h]
        exact (ih.cons y).trans (List.Perm.swap x y ys)

theorem sorted_insSorted {l : List Nat} (hl : l.Sorted (· ≤ ·)) (x : Nat) :
    (insSorted x l).Sorted (· ≤ ·) := by
  induction l with
  | nil => simp [insSorted]
  | cons y ys ih =>
      by_cases h : x ≤ y
      · rw [insSorted, if_pos h, List.sorted_cons]
        refine ⟨?_, hl⟩
        intro b hb
        rcases List.mem_cons.mp hb with h1 | h1
        · exact h1 ▸ h
        · exact le_trans h (List.rel_of_sorted_cons hl b h1)
      · rw [insSorted, if_neg h, List.sorted_cons]
        have hys : ys.Sorted (· ≤ ·) := hl.of_cons
        refine ⟨?_, ih hys⟩
        intro b hb
        have hb' : b ∈ x :: ys := (perm_insSorted x ys).mem_iff.mp hb
        rcases List.mem_cons.mp hb' with h1 | h1
        · exact h1 ▸ le_of_not_le h
        · exact List.rel_of_sorted_cons hl b h1

theorem perm_insertionSort (l : List Nat) : (insertionSort l).Perm l := by
  induction l with
  | nil => simp [insertionSort]
  | cons x xs ih =>
      exact (perm_insSorted x (insertionSort xs)).trans (ih.cons x)

theorem sorted_insertionSort (l : List Nat) :
    (insertionSort l).Sorted (· ≤ ·) := by
  induction l with
  | nil => simp [insertionSort]
  | cons x xs ih => exact sorted_insSorted ih x

/-- Ascending enumeration of a multiset, via a sort that the kernel can
evaluate. -/
def msSorted (m : Multiset Nat) : List Nat :=
  Quot.liftOn m insertionSort fun a b hab => by
    refine List.eq_of_perm_of_sorted ?_ (sorted_insertionSort a)
      (sorted_insertionSort b)
    exact (perm_insertionSort a).trans (hab.trans (perm_insertionSort b).symm)

/-- The ascending enumeration of a finite set of ids (`std::set`
iteration order). -/
def finSorted (s : Finset Nat) : List Nat := msSorted s.val

/-- A posting list (source lines 257-260): `uint64` cardinality then the
ids in ascending order (`std::set` iteration order). -/
def writeIdSet (e : Endian) (s : Finset Nat) : List Nat :=
  write_binary e 8 s.card ++ ((finSorted s).map (write_binary e 8)).flatten

/-- One inner map of the inverted index (source lines 252-261). -/
def writeInner (e : Endian) (inner : List (MetaVal × Finset Nat)) : List Nat :=
  write_binary e 8 inner.length ++
    (inner.map fun p => write_metadata_value e p.1 ++ writeIdSet e p.2).flatten

/-- The inverted-index blob (source lines 246-262). -/
def writeMetaIdx (e : Endian) (idx : InvIndex) : List Nat :=
  write_binary e 8 idx.length ++
    (idx.map fun p => write_string e p.1 ++ writeInner e p.2).flatten

/-- The bytes of the main database file a successful `save` commits to the
target path (source lines 209-272): magic, `uint32` format version 1,
config, primary-store section, and the size-framed inverted-index blob. -/
def saveBytes (e : Endian) (st : ImplState) : List Nat :=
  oriondb1Magic ++ write_binary e 4 1 ++ write_config e st.config ++
    writeStorage e st.storage ++
    write_binary e 8 (writeMetaIdx e st.metadata_index).length ++
    writeMetaIdx e st.metadata_index

/-- `Database::Impl::save` (source line 197): the two artifacts a
successful save leaves on disk — the main file at the target path and the
HNSW snapshot at `path + ".hnsw"` (written to `path + ".tmp_hnsw"` and
renamed, source lines 206 and 311-318). -/
def Impl.save (e : Endian) (st : ImplState) : List Nat × HnswState :=
  (saveBytes e st, st.hnsw)

/-- Float block reader of a storage record (source lines 367-372). -/
def readVecFloats (e : Endian) : Nat → List Nat → Option (Vec × List Nat)
  | 0, bs => some ([], bs)
  | n + 1, bs =>
      match read_binary e 4 bs with
      | none => none
      | some (x, rest) =>
          match readVecFloats e n rest with
          | none => none
          | some (xs, rest1) => some (x :: xs, rest1)

/-- Metadata pair loop of a storage record (source lines 373-381); pairs
enter via `emplace`, which keeps an existing key. -/
def readMetaPairs (e : Endian) : Nat → MetadataL → List Nat →
    Option (MetadataL × List Nat)
  | 0, acc, bs => some (acc, bs)
  | n + 1, acc, bs =>
      match read_string e bs with
      | none => none
      | some (key, rest) =>
          match read_metadata_value e rest with
          | none => none
          | some (mv, rest1) => readMetaPairs e n (emplaceA acc key mv) rest1

/-- Storage record loop (source lines 363-383); records enter via
`storage[id] = {v, meta}`. -/
def readEntries (e : Endian) : Nat → List (VectorId × VectorData) → List Nat →
    Option (List (VectorId × VectorData) × List Nat)
  | 0, acc, bs => some (acc, bs)
  | n + 1, acc, bs =>
      match read_binary e 8 bs with
      | none => none
      | some (id, r1) =>
          match read_binary e 8 r1 with
          | none => none
          | some (vecLen, r2) =>
              match readVecFloats e vecLen r2 with
              | none => none
              | some (v, r3) =>
                  match read_binary e 8 r3 with
                  | none => none
                  | some (metaPairs, r4) =>
                      match readMetaPairs e metaPairs [] r4 with
                      | none => none
                      | some (meta, r5) =>
                          readEntries e n (insertA acc id ⟨v, meta⟩) r5

/-- Posting-list id loop (source lines 412-418): ids enter a `std::set`. -/
def readIdList (e : Endian) : Nat → Finset Nat → List Nat →
    Option (Finset Nat × List Nat)
  | 0, acc, bs => some (acc, bs)
  | n + 1, acc, bs =>
      match read_binary e 8 bs with
      | none => none
      | some (id, rest) => readIdList e n (insert id acc) rest

/-- `metadata_index[outer_key][mv] = ids` (source line 419). -/
def assignIdx (idx : InvIndex) (k : Str) (v : MetaVal) (ids : Finset Nat) :
    InvIndex :=
  insertA idx k (insertA ((lookupA idx k).getD []) v ids)

/-- Inner-map loop of the inverted-index blob (source lines 407-420). -/
def readInnerEntries (e : Endian) (outerKey : Str) : Nat → InvIndex →
    List Nat → Option (InvIndex × List Nat)
  | 0, idx, bs => some (idx, bs)
  | n + 1, idx, bs =>
      match read_metadata_value e bs with
      | none => none
      | some (mv, rest) =>
          match read_binary e 8 rest with
          | none => none
          | some (cnt, rest1) =>
              match readIdList e cnt ∅ rest1 with
              | none => none
              | some (ids, rest2) =>
                  readInnerEntries e outerKey n (assignIdx idx outerKey mv ids) rest2

/-- Outer-map loop of the inverted-index blob (source lines 402-421). -/
def readOuterEntries (e : Endian) : Nat → InvIndex → List Nat →
    Option (InvIndex × List Nat)
  | 0, idx, bs => some (idx, bs)
  | n + 1, idx, bs =>
      match read_string e bs with
      | none => none
      | some (key, rest) =>
          match read_binary e 8 rest with
          | none => none
          | some (innerCnt, rest1) =>
              match readInnerEntries e key innerCnt idx rest1 with
              | none => none
              | some (idx1, rest2) => readOuterEntries e n idx1 rest2

/-- `Database::Impl::load` (source line 329).  Reads the magic and the
format version, then checks only the magic (the version is never
validated); parses config, storage, and the size-framed inverted-index
blob; initialises the graph index from the `.hnsw` sibling file when
present (`side`) or fresh from the loaded config otherwise; finally
re-inserts every stored vector defensively, exceptions swallowed (source
lines 445-455).  Short reads and bad variant tags yield `none` (the
thrown exceptions are caught in `Database::load`, which then returns no
handle). -/
def Impl.load (e : Endian) (bytes : List Nat) (side : Option HnswState) :
    Option ImplState :=
  match takeBytes 8 bytes with
  | none => none
  | some (magic, r0) =>
      match read_binary e 4 r0 with
      | none => none
      | some (_fmtVersion, r1) =>
          if magic ≠ oriondb1Magic then none
          else
            match read_config e r1 with
            | none => none
            | some (cfg, r2) =>
                match read_binary e 8 r2 with
                | none => none
                | some (storCnt, r3) =>
                    match readEntries e storCnt [] r3 with
                    | none => none
                    | some (stor, r4) =>
                        match read_binary e 8 r4 with
                        | none => none
                        | some (blobSize, r5) =>
                            match takeBytes blobSize r5 with
                            | none => none
                            | some (blob, _r6) =>
                                let idxOpt : Option InvIndex :=
                                  if blobSize = 0 then some []
                                  else
                                    match read_binary e 8 blob with
                                    | none => none
                                    | some (outerCnt, rb) =>
                                        match readOuterEntries e outerCnt [] rb with
                                        | none => none
                                        | some (idx, _) => some idx
                                match idxOpt with
                                | none => none
                                | some idx =>
                                    let h0 :=
                                      match side with
                                      | some hs => hs
                                      | none => Hnsw.init cfg.max_elements
                                    let h1 := stor.foldl
                                      (fun acc kv =>
                                        (Hnsw.addPoint acc kv.2.vector kv.1).getD acc)
                                      h0
                                    some ⟨cfg, stor, idx, h1⟩

/-! ## The public `Database` facade (source lines 623-709).

`pimpl` is a possibly-null pointer to the `Impl` state; a
default-constructed handle and a moved-from handle hold `nullptr`, and
every public method checks the pointer before forwarding. -/

/-- A `Database` handle: `none` models a null `pimpl`. -/
def DB := Option ImplState

/-- `Database::Database()` (source line 623): `pimpl(nullptr)`. -/
def DB.nullHandle : DB := none

/-- `Database::Database(Database &&)` (source line 625): the new handle
takes the pointer, the source is left null. -/
def DB.moveFrom (d : DB) : DB × DB := (d, none)

/-- `Database::save` (source line 668); the `Bool` is the reported result
and the second component the committed artifacts (the model abstracts
from I/O failures, which would also return `false`). -/
def DB.save (e : Endian) (d : DB) : Bool × Option (List Nat × HnswState) :=
  match d with
  | none => (false, none)
  | some st => (true, some (Impl.save e st))

/-- `Database::add` (source line 674). -/
def DB.add (alloc : Bool) (d : DB) (id : VectorId) (vec : Vec)
    (meta : MetadataL) : Bool × DB :=
  match d with
  | none => (false, none)
  | some st =>
      let r := Impl.add alloc st id vec meta
      (r.1, some r.2)

/-- `Database::query` without filter (source line 680). -/
def DB.query (s : SearchFn) (d : DB) (q : Vec) (n : Nat) : List QueryResult :=
  match d with
  | none => []
  | some st => Impl.query s st q n

/-- `Database::query` with filter (source line 686). -/
def DB.queryF (s : SearchFn) (d : DB) (q : Vec) (n : Nat) (filter : MetadataL) :
    List QueryResult :=
  match d with
  | none => []
  | some st => Impl.queryF s st q n filter

/-- `Database::get` (source line 692). -/
def DB.get (d : DB) (id : VectorId) : Option (Vec × MetadataL) :=
  match d with
  | none => none
  | some st => Impl.get st id

/-- `Database::remove` (source line 698). -/
def DB.remove (d : DB) (id : VectorId) : Bool × DB :=
  match d with
  | none => (false, none)
  | some st =>
      let r := Impl.remove st id
      (r.1, some r.2)

/-- `Database::count` (source line 704). -/
def DB.count (d : DB) : Nat :=
  match d with
  | none => 0
  | some st => Impl.count st

/-! ## Well-formedness dictated by the C++ types.

Every value a real run can hold satisfies these bounds by construction
(`uint64_t` ids past `std::map` keys, `float` elements, `size_t` map
sizes); the shallow embedding states them explicitly where a proof needs
them. -/

/-- A `std::string`: byte content with a `size_t` length. -/
def WFStr (s : Str) : Prop := s.length < 2 ^ 64 ∧ ∀ b ∈ s, b < 256

/-- A `std::vector<float>`: 4-byte element patterns, `size_t` length. -/
def WFVec (v : Vec) : Prop := v.length < 2 ^ 64 ∧ ∀ b ∈ v, b < 2 ^ 32

/-- A `Metadata` map: distinct keys, bounded size, well-formed pairs. -/
def WFMeta (m : MetadataL) : Prop :=
  m.length < 2 ^ 64 ∧ (m.map Prod.fst).Nodup ∧ ∀ kv ∈ m, WFStr kv.1 ∧ WFVal kv.2

instance : DecidablePred WFStr := fun _ => by unfold WFStr; infer_instance

instance : DecidablePred WFVec := fun _ => by unfold WFVec; infer_instance

instance : DecidablePred WFMeta := fun _ => by unfold WFMeta; infer_instance

/-- Well-formedness of one inner entry of the inverted index. -/
def WFInnerEntry (q : MetaVal × Finset Nat) : Prop :=
  WFVal q.1 ∧ q.2.card < 2 ^ 64 ∧ ∀ i ∈ q.2, i < 2 ^ 64

instance : DecidablePred WFInnerEntry := fun _ => by
  unfold WFInnerEntry; infer_instance

/-- Well-formedness of one outer entry of the inverted index, including
the pruning invariant (a persisted entry is never empty). -/
def WFOuterEntry (p : Str × List (MetaVal × Finset Nat)) : Prop :=
  WFStr p.1 ∧ p.2.length < 2 ^ 64 ∧ (p.2.map Prod.fst).Nodup ∧ p.2 ≠ [] ∧
    ∀ q ∈ p.2, WFInnerEntry q

instance : DecidablePred WFOuterEntry := fun _ => by
  unfold WFOuterEntry; infer_instance

/-! ## Engine invariants. -/

/-- The storage/graph synchronisation invariant: every stored id has a
live slot carrying the same vector payload, and every slot carrying that
label agrees with the store. -/
def InvHnswP (stor : List (VectorId × VectorData)) (h : HnswState) : Prop :=
  ∀ kv ∈ stor,
    (∃ s ∈ h.slots, s.label = kv.1) ∧
      ∀ s ∈ h.slots, s.label = kv.1 → s = ⟨kv.1, kv.2.vector, false⟩

instance (stor : List (VectorId × VectorData)) :
    DecidablePred (InvHnswP stor) := fun _ => by unfold InvHnswP; infer_instance

/-- `InvHnswP` for the components of an engine state. -/
def InvHnsw (st : ImplState) : Prop := InvHnswP st.storage st.hnsw

instance : DecidablePred InvHnsw := fun _ => by unfold InvHnsw; infer_instance

/-- Structural well-formedness of the inverted index: distinct keys at
both levels, C++-typed value bounds, and the pruning invariant (no empty
inner map, no empty posting set). -/
def IdxWF (idx : InvIndex) : Prop :=
  (idx.map Prod.fst).Nodup ∧
  ∀ p ∈ idx, WFStr p.1 ∧ (p.2.map Prod.fst).Nodup ∧ p.2 ≠ [] ∧
    ∀ q ∈ p.2, (q.2 ≠ ∅ ∧ WFVal q.1) ∧ ∀ i ∈ q.2, i < 2 ^ 64

instance : DecidablePred IdxWF := fun _ => by unfold IdxWF; infer_instance

/-- The structural and value-level invariant every reachable state keeps:
distinct map keys throughout, C++-typed value bounds, pruning of the
inverted index, and storage/graph synchronisation. -/
def StructInv (st : ImplState) : Prop :=
  (st.storage.map Prod.fst).Nodup ∧
  (∀ kv ∈ st.storage, kv.1 < 2 ^ 64 ∧ WFVec kv.2.vector ∧ WFMeta kv.2.metadata) ∧
  IdxWF st.metadata_index ∧
  InvHnsw st

instance : DecidablePred StructInv := fun _ => by unfold StructInv; infer_instance

/-- Size bounds dictated by `size_t` arithmetic: container sizes fit in
64 bits.  They hold in any physically realisable run (a process cannot
hold 2 ^ 64 map entries) but, unlike `StructInv`, they are not a
consequence of the transition relation alone, so they are stated
separately. -/
def SizeOk (st : ImplState) : Prop :=
  st.config.vector_dim < 2 ^ 32 ∧ st.config.max_elements < 2 ^ 64 ∧
  st.storage.length < 2 ^ 64 ∧ st.metadata_index.length < 2 ^ 64 ∧
  (∀ p ∈ st.metadata_index, p.2.length < 2 ^ 64 ∧ ∀ q ∈ p.2, q.2.card < 2 ^ 64) ∧
  (writeMetaIdx Endian.little st.metadata_index).length < 2 ^ 64 ∧
  (writeMetaIdx Endian.big st.metadata_index).length < 2 ^ 64

instance : DecidablePred SizeOk := fun _ => by unfold SizeOk; infer_instance

/-- The posting list stored under `(k, v)`, if any: the composition of the
two map lookups the engine performs. -/
def postings (idx : InvIndex) (k : Str) (v : MetaVal) : Option (Finset Nat) :=
  (lookupA idx k).bind fun inner => lookupA inner v

/-- Distinct keys at both levels of the inverted index. -/
def IdxNodup (idx : InvIndex) : Prop :=
  (idx.map Prod.fst).Nodup ∧ ∀ p ∈ idx, (p.2.map Prod.fst).Nodup

/-- The state of the pre-insert graph in `add`: the old index, with the
replaced label soft-deleted when the id already existed (source lines
467-475). -/
def addPreHnsw (st : ImplState) (id : VectorId) : HnswState :=
  if (lookupA st.storage id).isSome then Hnsw.markDelete st.hnsw id else st.hnsw

/-- The inverted index after the purge step of `add` (source lines
467-475). -/
def addMidIdx (st : ImplState) (id : VectorId) : InvIndex :=
  if (lookupA st.storage id).isSome then Impl.remove_from_metadata_index st id
  else st.metadata_index

/-- The capacity the rebuild of a failing `add` proposes (source line
487): `max(max_elements * 2, storage.size() + 10)`, computed after the
new record entered the primary store. -/
def addProposed (st : ImplState) (id : VectorId) (vec : Vec)
    (meta : MetadataL) : Nat :=
  max (st.config.max_elements * 2)
    ((insertA st.storage id ⟨vec, meta⟩).length + 10)

/-- The mutual-consistency invariant of PrimaryStore and InvertedIndex:
every stored `(id, k, v)` has `id` in the posting list of `(k, v)`, and
every posted id is live with exactly that pair. -/
def IndexSync (st : ImplState) : Prop :=
  (∀ id vd, lookupA st.storage id = some vd →
    ∀ k v, lookupA vd.metadata k = some v →
      ∃ s, postings st.metadata_index k v = some s ∧ id ∈ s) ∧
  (∀ k v s, postings st.metadata_index k v = some s →
    ∀ id ∈ s, ∃ vd, lookupA st.storage id = some vd ∧
      lookupA vd.metadata k = some v)

/-- The full inductive invariant of the engine. -/
def FullInv (st : ImplState) : Prop := StructInv st ∧ IndexSync st

/-- The old metadata of `id` in `st`, empty when `id` is not stored. -/
def oldMetaOf (st : ImplState) (id : VectorId) : MetadataL :=
  (lookupA st.storage id).elim [] VectorData.metadata

/-- The states reachable from `create` by successful `add` and `remove`
calls, with arguments drawn from the C++ value types (the bounds mirror
`uint64_t`, `float` and `std::map` typing). -/
inductive Reachable : ImplState → Prop where
  | create (cfg : Config) : Reachable (Impl.create cfg)
  | addStep (st : ImplState) (alloc : Bool) (id : VectorId) (vec : Vec)
      (meta : MetadataL) (hr : Reachable st) (hid : id < 2 ^ 64)
      (hv : WFVec vec) (hm : WFMeta meta)
      (hok : (Impl.add alloc st id vec meta).1 = true) :
      Reachable (Impl.add alloc st id vec meta).2
  | removeStep (st : ImplState) (id : VectorId) (hr : Reachable st)
      (hok : (Impl.remove st id).1 = true) :
      Reachable (Impl.remove st id).2

/-- A small populated engine state: one successful `add` on a fresh
engine of dimension 1 and capacity 4. -/
def stDemo : ImplState :=
  (Impl.add true (Impl.create ⟨1, 4⟩) 1 [5] [([107], MetaVal.vInt 3)]).2

/-- The state of `stDemo` after a replacing add and a remove of a second
record. -/
def stDemo2 : ImplState :=
  (Impl.remove (Impl.add true stDemo 2 [6] [([107], MetaVal.vInt 3),
    ([108], MetaVal.vStr [97])]).2 1).2

/-- A full engine: capacity 1, one stored vector, so a fresh-id `add`
hits capacity-exceeded. -/
def stFull : ImplState :=
  ⟨⟨1, 1⟩, [(0, ⟨[7], []⟩)], [], ⟨1, [⟨0, [7], false⟩]⟩⟩

/-- A graph-search probe that returns a recognisable non-empty result,
used to observe whether the engine reached the graph search. -/
def sProbe : SearchFn := fun _ _ _ _ => [⟨99, 0⟩]

/-- A dimension-2 engine with one stored vector and one posting. -/
def stC4 : ImplState :=
  ⟨⟨2, 4⟩, [(1, ⟨[3, 4], [([107], MetaVal.vInt 1)]⟩)],
    [([107], [(MetaVal.vInt 1, {1})])], ⟨4, [⟨1, [3, 4], false⟩]⟩⟩

/-- The main-file bytes of a save of a fresh engine. -/
def c6BaseBytes : List Nat := saveBytes Endian.little (Impl.create ⟨2, 3⟩)

/-- The same bytes with the format-version field overwritten with 7. -/
def c6PatchedBytes : List Nat :=
  c6BaseBytes.take 8 ++ write_binary Endian.little 4 7 ++ c6BaseBytes.drop 12

/-- The conjunctive candidate set of a filter: the intersection of all
its posting lists, seeded from the first. -/
def interList : List (Finset Nat) → Finset Nat
  | [] => ∅
  | x :: xs => xs.foldl (· ∩ ·) x

/-- A one-record engine used to exercise the filtered query pipeline. -/
def stC9 : ImplState :=
  ⟨⟨2, 4⟩, [(1, ⟨[3, 4], [([107], MetaVal.vInt 1)]⟩)],
    [([107], [(MetaVal.vInt 1, {1})])], ⟨4, [⟨1, [3, 4], false⟩]⟩⟩

theorem leBytes_length (w v : Nat) : (leBytes w v).length = w := by
  induction w generalizing v with
  | zero => rfl
  | succ w ih => simp [leBytes, ih]

theorem leVal_leBytes (w v : Nat) : leVal (leBytes w v) = v % 256 ^ w := by
  induction w generalizing v with
  | zero => simp [leBytes, leVal, Nat.mod_one]
  | succ w ih =>
      have h256 : 256 ^ (w + 1) = 256 * 256 ^ w := by
        rw [pow_succ]; ring
      rw [leBytes, leVal, ih, h256, Nat.mod_mul]

theorem leVal_leBytes_of_lt {w v : Nat} (h : v < 256 ^ w) :
    leVal (leBytes w v) = v := by
  rw [leVal_leBytes, Nat.mod_eq_of_lt h]

theorem write_binary_length (e : Endian) (w v : Nat) :
    (write_binary e w v).length = w := by
  cases e <;> simp [write_binary, leBytes_length]

theorem hostVal_write_binary (e : Endian) (w v : Nat) :
    hostVal e (write_binary e w v) = v % 256 ^ w := by
  cases e <;> simp [hostVal, write_binary, leVal_leBytes]

theorem takeBytes_append (pre rest : List Nat) :
    takeBytes pre.length (pre ++ rest) = some (pre, rest) := by
  simp [takeBytes]

theorem read_binary_write_binary (e : Endian) {w v : Nat} (rest : List Nat)
    (h : v < 256 ^ w) :
    read_binary e w (write_binary e w v ++ rest) = some (v, rest) := by
  have hv := hostVal_write_binary e w v
  generalize hgen : write_binary e w v = pre at *
  have ht : takeBytes w (pre ++ rest) = some (pre, rest) := by
    rw [← write_binary_length e w v, hgen]; exact takeBytes_append _ _
  rw [read_binary, ht]
  simp [hv, Nat.mod_eq_of_lt h]

theorem read_string_write_string (e : Endian) {s : Str} (rest : List Nat)
    (h : s.length < 2 ^ 64) :
    read_string e (write_string e s ++ rest) = some (s, rest) := by
  have h64 : s.length < 256 ^ 8 := by
    have : (256 : Nat) ^ 8 = 2 ^ 64 := by norm_num
    omega
  rw [write_string, List.append_assoc, read_string,
    read_binary_write_binary e (s ++ rest) h64]
  simp [takeBytes_append]

theorem intToU64_lt (v : Int) : intToU64 v < 2 ^ 64 := by
  have h : (0 : Int) ≤ v % (2 ^ 64 : Int) := Int.emod_nonneg v (by norm_num)
  have h2 : v % (2 ^ 64 : Int) < 2 ^ 64 := Int.emod_lt_of_pos v (by norm_num)
  rw [intToU64]
  omega

theorem u64ToInt_intToU64 {v : Int} (hlo : -(2 ^ 63) ≤ v) (hhi : v < 2 ^ 63) :
    u64ToInt (intToU64 v) = v := by
  rw [intToU64, u64ToInt]
  rcases le_or_lt 0 v with hv | hv
  · have hmod : v % (2 ^ 64 : Int) = v := Int.emod_eq_of_lt hv (by omega)
    rw [hmod]
    omega
  · have hmod : v % (2 ^ 64 : Int) = v + 2 ^ 64 := by
      have : (v + 2 ^ 64) % (2 ^ 64 : Int) = v % (2 ^ 64 : Int) := by
        omega
      rw [← this, Int.emod_eq_of_lt (by omega) (by omega)]
    rw [hmod]
    omega

theorem read_write_metadata_value (e : Endian) {v : MetaVal} (rest : List Nat)
    (h : WFVal v) :
    read_metadata_value e (write_metadata_value e v ++ rest) = some (v, rest) := by
  have h256 : (256 : Nat) ^ 8 = 2 ^ 64 := by norm_num
  cases v with
  | vInt n =>
      obtain ⟨hlo, hhi⟩ := h
      have hb : intToU64 n < 256 ^ 8 := by rw [h256]; exact intToU64_lt n
      simp [write_metadata_value, read_metadata_value,
        read_binary_write_binary e rest hb, u64ToInt_intToU64 hlo hhi]
  | vFloat bits =>
      have hb : bits < 256 ^ 8 := by rw [h256]; exact h
      simp [write_metadata_value, read_metadata_value,
        read_binary_write_binary e rest hb]
  | vStr s =>
      simp [write_metadata_value, read_metadata_value,
        read_string_write_string e rest h.1]

theorem read_config_write_config (e : Endian) {cfg : Config} (rest : List Nat)
    (hdim : cfg.vector_dim < 2 ^ 32) (hmax : cfg.max_elements < 2 ^ 64) :
    read_config e (write_config e cfg ++ rest) = some (cfg, rest) := by
  have h32 : cfg.vector_dim < 256 ^ 4 := by norm_num at *; omega
  have h64 : cfg.max_elements < 256 ^ 8 := by norm_num at *; omega
  rw [write_config, List.append_assoc, read_config,
    read_binary_write_binary e _ h32]
  simp [read_binary_write_binary e rest h64]

section AList

variable {α β : Type} [DecidableEq α]

theorem lookupA_insertA_self (l : List (α × β)) (a : α) (b : β) :
    lookupA (insertA l a b) a = some b := by
  induction l with
  | nil => simp [insertA, lookupA]
  | cons kv rest ih =>
      obtain ⟨k, v⟩ := kv
      by_cases h : k = a
      · subst h
        simp [insertA, lookupA]
      · simp [insertA, lookupA, h, ih]

theorem lookupA_insertA_ne (l : List (α × β)) {a a' : α} (b : β) (h : a ≠ a') :
    lookupA (insertA l a b) a' = lookupA l a' := by
  induction l with
  | nil => simp [insertA, lookupA, h]
  | cons kv rest ih =>
      obtain ⟨k, v⟩ := kv
      by_cases hk : k = a
      · subst hk
        simp [insertA, lookupA, h]
      · simp only [insertA, if_neg hk, lookupA]
        by_cases hk2 : k = a' <;> simp [hk2, ih]

theorem lookupA_eq_none (l : List (α × β)) (a : α) :
    lookupA l a = none ↔ a ∉ l.map Prod.fst := by
  induction l with
  | nil => simp [lookupA]
  | cons kv rest ih =>
      obtain ⟨k, v⟩ := kv
      by_cases h : k = a
      · subst h
        simp [lookupA]
      · simp [lookupA, h, ih, Ne.symm h]

theorem eraseA_sublist (l : List (α × β)) (a : α) : (eraseA l a).Sublist l := by
  induction l with
  | nil => simp [eraseA]
  | cons kv rest ih =>
      obtain ⟨k, v⟩ := kv
      by_cases h : k = a
      · simp only [eraseA, if_pos h]
        exact List.sublist_cons_self _ _
      · simp only [eraseA, if_neg h]
        exact ih.cons₂ _

theorem mem_eraseA (l : List (α × β)) (a : α) {p : α × β}
    (hp : p ∈ eraseA l a) : p ∈ l :=
  (eraseA_sublist l a).subset hp

theorem eraseA_keys_nodup (l : List (α × β)) (a : α)
    (hnd : (l.map Prod.fst).Nodup) :
    ((eraseA l a).map Prod.fst).Nodup :=
  hnd.sublist ((eraseA_sublist l a).map Prod.fst)

theorem lookupA_eraseA_self (l : List (α × β)) (a : α)
    (hnd : (l.map Prod.fst).Nodup) :
    lookupA (eraseA l a) a = none := by
  induction l with
  | nil => simp [eraseA, lookupA]
  | cons kv rest ih =>
      obtain ⟨k, v⟩ := kv
      simp only [List.map_cons, List.nodup_cons] at hnd
      by_cases h : k = a
      · subst h
        simp only [eraseA, if_pos rfl]
        exact (lookupA_eq_none rest k).mpr hnd.1
      · simp [eraseA, lookupA, h, ih hnd.2]

theorem lookupA_eraseA_ne (l : List (α × β)) {a a' : α} (h : a ≠ a') :
    lookupA (eraseA l a) a' = lookupA l a' := by
  induction l with
  | nil => simp [eraseA, lookupA]
  | cons kv rest ih =>
      obtain ⟨k, v⟩ := kv
      by_cases hk : k = a
      · subst hk
        simp [eraseA, lookupA, h]
      · simp only [eraseA, if_neg hk, lookupA]
        by_cases hk2 : k = a' <;> simp [hk2, ih]

theorem keys_insertA (l : List (α × β)) (a : α) (b : β) :
    (insertA l a b).map Prod.fst =
      if (lookupA l a).isSome then l.map Prod.fst
      else l.map Prod.fst ++ [a] := by
  induction l with
  | nil => simp [insertA, lookupA]
  | cons kv rest ih =>
      obtain ⟨k, v⟩ := kv
      by_cases h : k = a
      · subst h
        simp [insertA, lookupA]
      · simp only [insertA, if_neg h, lookupA, List.map_cons, ih]
        by_cases h2 : (lookupA rest a).isSome <;> simp [h, h2]

theorem insertA_keys_nodup (l : List (α × β)) (a : α) (b : β)
    (hnd : (l.map Prod.fst).Nodup) :
    ((insertA l a b).map Prod.fst).Nodup := by
  rw [keys_insertA]
  by_cases h : (lookupA l a).isSome
  · simpa [h]
  · have ha : a ∉ l.map Prod.fst := by
      rw [← lookupA_eq_none]
      cases hl : lookupA l a
      · rfl
      · simp [hl] at h
    simp [h, List.nodup_append, hnd, ha]

theorem mem_insertA (l : List (α × β)) (a : α) (b : β) {p : α × β}
    (hp : p ∈ insertA l a b) : p ∈ l ∨ p = (a, b) := by
  induction l with
  | nil =>
      simp only [insertA, List.mem_singleton] at hp
      exact Or.inr hp
  | cons kv rest ih =>
      obtain ⟨k, v⟩ := kv
      by_cases h : k = a
      · subst h
        simp only [insertA, if_pos rfl] at hp
        rcases List.mem_cons.mp hp with h1 | h1
        · exact Or.inr h1
        · exact Or.inl (List.mem_cons_of_mem _ h1)
      · simp only [insertA, if_neg h] at hp
        rcases List.mem_cons.mp hp with h1 | h1
        · exact Or.inl (h1 ▸ List.mem_cons_self _ _)
        · rcases ih h1 with h2 | h2
          · exact Or.inl (List.mem_cons_of_mem _ h2)
          · exact Or.inr h2

theorem lookupA_mem {l : List (α × β)} {a : α} {b : β}
    (h : lookupA l a = some b) : (a, b) ∈ l := by
  induction l with
  | nil => simp [lookupA] at h
  | cons kv rest ih =>
      obtain ⟨k, v⟩ := kv
      by_cases hk : k = a
      · subst hk
        simp only [lookupA, if_true, eq_self_iff_true, Option.some.injEq] at h
        subst h
        exact List.mem_cons_self _ _
      · simp only [lookupA, if_neg hk] at h
        exact List.mem_cons_of_mem _ (ih h)

theorem mem_lookupA {l : List (α × β)} {a : α} {b : β}
    (hnd : (l.map Prod.fst).Nodup) (h : (a, b) ∈ l) : lookupA l a = some b := by
  induction l with
  | nil => simp at h
  | cons kv rest ih =>
      obtain ⟨k, v⟩ := kv
      simp only [List.map_cons, List.nodup_cons] at hnd
      rcases List.mem_cons.mp h with h1 | h1
      · have hk : k = a := (congrArg Prod.fst h1).symm
        have hb : v = b := (congrArg Prod.snd h1).symm
        subst hk
        subst hb
        simp [lookupA]
      · have hk : k ≠ a := by
          intro hcon
          subst hcon
          apply hnd.1
          exact List.mem_map.mpr ⟨(k, b), h1, rfl⟩
        simp only [lookupA, if_neg hk]
        exact ih hnd.2 h1

theorem insertA_length (l : List (α × β)) (a : α) (b : β) :
    (insertA l a b).length =
      if (lookupA l a).isSome then l.length else l.length + 1 := by
  induction l with
  | nil => simp [insertA, lookupA]
  | cons kv rest ih =>
      obtain ⟨k, v⟩ := kv
      by_cases h : k = a
      · simp [insertA, lookupA, h]
      · simp only [insertA, if_neg h, lookupA, List.length_cons, ih]
        by_cases h2 : (lookupA rest a).isSome <;> simp [h, h2]

end AList

theorem msSorted_coe (m : Multiset Nat) :
    (↑(msSorted m) : Multiset Nat) = m := by
  induction m using Quotient.inductionOn with
  | h l => exact Quot.sound (perm_insertionSort l)

theorem finSorted_coe (s : Finset Nat) :
    (↑(finSorted s) : Multiset Nat) = s.val := msSorted_coe s.val

theorem length_finSorted (s : Finset Nat) : (finSorted s).length = s.card := by
  have := congrArg Multiset.card (finSorted_coe s)
  simpa using this

theorem mem_finSorted {a : Nat} {s : Finset Nat} :
    a ∈ finSorted s ↔ a ∈ s := by
  rw [← Multiset.mem_coe, finSorted_coe]
  exact Iff.rfl

theorem toFinset_finSorted (s : Finset Nat) : (finSorted s).toFinset = s :=
  Finset.ext fun a => by rw [List.mem_toFinset, mem_finSorted]

section AListAppend

variable {α β : Type} [DecidableEq α]

theorem lookupA_append_none {l : List (α × β)} {a : α} (l2 : List (α × β))
    (h : lookupA l a = none) : lookupA (l ++ l2) a = lookupA l2 a := by
  induction l with
  | nil => simp
  | cons kv rest ih =>
      obtain ⟨k, v⟩ := kv
      by_cases hk : k = a
      · simp [lookupA, hk] at h
      · simp only [lookupA, if_neg hk] at h
        simp only [List.cons_append, lookupA, if_neg hk]
        exact ih h

theorem lookupA_append_last {l : List (α × β)} {a : α} (b : β)
    (h : lookupA l a = none) : lookupA (l ++ [(a, b)]) a = some b := by
  rw [lookupA_append_none _ h]
  simp [lookupA]

theorem insertA_eq_append {l : List (α × β)} {a : α} (b : β)
    (h : lookupA l a = none) : insertA l a b = l ++ [(a, b)] := by
  induction l with
  | nil => simp [insertA]
  | cons kv rest ih =>
      obtain ⟨k, v⟩ := kv
      by_cases hk : k = a
      · simp [lookupA, hk] at h
      · simp only [lookupA, if_neg hk] at h
        simp [insertA, hk, ih h]

theorem insertA_append_entry {l : List (α × β)} {a : α} (b c : β)
    (h : lookupA l a = none) : insertA (l ++ [(a, c)]) a b = l ++ [(a, b)] := by
  induction l with
  | nil => simp [insertA]
  | cons kv rest ih =>
      obtain ⟨k, v⟩ := kv
      by_cases hk : k = a
      · simp [lookupA, hk] at h
      · simp only [lookupA, if_neg hk] at h
        simp [insertA, hk, ih h]

theorem emplaceA_eq_append {l : List (α × β)} {a : α} (b : β)
    (h : lookupA l a = none) : emplaceA l a b = l ++ [(a, b)] := by
  rw [emplaceA, h, insertA_eq_append b h]

end AListAppend

/-! ## Round trip of the persisted byte format. -/

theorem lt64_to_256 {n : Nat} (h : n < 2 ^ 64) : n < 256 ^ 8 := by
  have he : (256 : Nat) ^ 8 = 2 ^ 64 := by norm_num
  omega

theorem lt32_to_256 {n : Nat} (h : n < 2 ^ 32) : n < 256 ^ 4 := by
  have he : (256 : Nat) ^ 4 = 2 ^ 32 := by norm_num
  omega

theorem readVecFloats_block (e : Endian) {v : Vec} (rest : List Nat)
    (h : ∀ b ∈ v, b < 2 ^ 32) :
    readVecFloats e v.length ((v.map (write_binary e 4)).flatten ++ rest) =
      some (v, rest) := by
  induction v with
  | nil => simp [readVecFloats]
  | cons x xs ih =>
      have hx : x < 256 ^ 4 := lt32_to_256 (h x (List.mem_cons_self _ _))
      have hxs : ∀ b ∈ xs, b < 2 ^ 32 := fun b hb => h b (List.mem_cons_of_mem _ hb)
      simp only [List.map_cons, List.flatten_cons, List.length_cons,
        List.append_assoc, readVecFloats, read_binary_write_binary e _ hx, ih hxs]

theorem readVec_writeVec (e : Endian) {v : Vec} (rest : List Nat) (h : WFVec v) :
    read_binary e 8 (writeVec e v ++ rest) =
      some (v.length, (v.map (write_binary e 4)).flatten ++ rest) := by
  rw [writeVec, List.append_assoc]
  exact read_binary_write_binary e _ (lt64_to_256 h.1)

theorem readMetaPairs_body (e : Endian) {m : MetadataL} (rest : List Nat)
    (acc : MetadataL)
    (hnd : ((acc ++ m).map Prod.fst).Nodup)
    (hwf : ∀ kv ∈ m, WFStr kv.1 ∧ WFVal kv.2) :
    readMetaPairs e m.length acc
        ((m.map fun kv => write_string e kv.1 ++ write_metadata_value e kv.2).flatten
          ++ rest) =
      some (acc ++ m, rest) := by
  induction m generalizing acc with
  | nil => simp [readMetaPairs]
  | cons kv m ih =>
      obtain ⟨k, v⟩ := kv
      have hk : WFStr k := (hwf (k, v) (List.mem_cons_self _ _)).1
      have hv : WFVal v := (hwf (k, v) (List.mem_cons_self _ _)).2
      have hfresh : lookupA acc k = none := by
        rw [lookupA_eq_none]
        intro hmem
        have hn : (acc.map Prod.fst ++ k :: m.map Prod.fst).Nodup := by
          simpa using hnd
        rcases List.nodup_append.mp hn with ⟨h1, h2, h3⟩
        exact h3 hmem (List.mem_cons_self _ _)
      have hnd' : (((acc ++ [(k, v)]) ++ m).map Prod.fst).Nodup := by
        simpa using hnd
      simp only [List.map_cons, List.flatten_cons, List.length_cons,
        List.append_assoc, readMetaPairs, read_string_write_string e _ hk.1,
        read_write_metadata_value e _ hv, emplaceA_eq_append _ hfresh,
        ih _ hnd' (fun kv hkv => hwf kv (List.mem_cons_of_mem _ hkv))]
      simp

theorem readEntries_body (e : Endian) {stor : List (VectorId × VectorData)}
    (rest : List Nat) (acc : List (VectorId × VectorData))
    (hnd : ((acc ++ stor).map Prod.fst).Nodup)
    (hwf : ∀ kv ∈ stor, kv.1 < 2 ^ 64 ∧ WFVec kv.2.vector ∧ WFMeta kv.2.metadata) :
    readEntries e stor.length acc ((stor.map (writeEntry e)).flatten ++ rest) =
      some (acc ++ stor, rest) := by
  induction stor generalizing acc with
  | nil => simp [readEntries]
  | cons kv stor ih =>
      obtain ⟨id, vd⟩ := kv
      obtain ⟨hid, hvec, hmeta⟩ := hwf (id, vd) (List.mem_cons_self _ _)
      have hid8 : id < 256 ^ 8 := lt64_to_256 hid
      have hml : vd.metadata.length < 256 ^ 8 := lt64_to_256 hmeta.1
      have hfresh : lookupA acc id = none := by
        rw [lookupA_eq_none]
        intro hmem
        have hn : (acc.map Prod.fst ++ id :: stor.map Prod.fst).Nodup := by
          simpa using hnd
        rcases List.nodup_append.mp hn with ⟨h1, h2, h3⟩
        exact h3 hmem (List.mem_cons_self _ _)
      have hnd' : (((acc ++ [(id, vd)]) ++ stor).map Prod.fst).Nodup := by
        simpa using hnd
      have hmp : readMetaPairs e vd.metadata.length []
          ((vd.metadata.map fun kv =>
              write_string e kv.1 ++ write_metadata_value e kv.2).flatten ++
            ((stor.map (writeEntry e)).flatten ++ rest)) =
          some (vd.metadata, (stor.map (writeEntry e)).flatten ++ rest) := by
        have := readMetaPairs_body e ((stor.map (writeEntry e)).flatten ++ rest)
          ([] : MetadataL) (by simpa using hmeta.2.1) hmeta.2.2
        simpa using this
      simp only [List.map_cons, List.flatten_cons, List.length_cons,
        writeEntry, List.append_assoc, readEntries,
        read_binary_write_binary e _ hid8, readVec_writeVec e _ hvec,
        readVecFloats_block e _ hvec.2, writeMeta,
        read_binary_write_binary e _ hml, hmp, insertA_eq_append _ hfresh,
        ih _ hnd' (fun p hp => hwf p (List.mem_cons_of_mem _ hp))]
      simp

theorem foldl_insert_union (l : List Nat) (acc : Finset Nat) :
    l.foldl (fun a i => insert i a) acc = acc ∪ l.toFinset := by
  induction l generalizing acc with
  | nil => simp
  | cons x xs ih =>
      simp only [List.foldl_cons, List.toFinset_cons, ih]
      ext a
      simp [or_comm, or_assoc, or_left_comm]

theorem readIdList_block (e : Endian) {l : List Nat} (rest : List Nat)
    (acc : Finset Nat) (h : ∀ i ∈ l, i < 2 ^ 64) :
    readIdList e l.length acc ((l.map (write_binary e 8)).flatten ++ rest) =
      some (l.foldl (fun a i => insert i a) acc, rest) := by
  induction l generalizing acc with
  | nil => simp [readIdList]
  | cons x xs ih =>
      have hx : x < 256 ^ 8 := lt64_to_256 (h x (List.mem_cons_self _ _))
      simp only [List.map_cons, List.flatten_cons, List.length_cons,
        List.append_assoc, List.foldl_cons, readIdList,
        read_binary_write_binary e _ hx,
        ih _ (fun i hi => h i (List.mem_cons_of_mem _ hi))]

theorem readIdSet_writeIdSet (e : Endian) {s : Finset Nat} (rest : List Nat)
    (hcard : s.card < 2 ^ 64) (h : ∀ i ∈ s, i < 2 ^ 64) :
    (read_binary e 8 (writeIdSet e s ++ rest)).bind
        (fun p => readIdList e p.1 ∅ p.2) = some (s, rest) := by
  have hc8 : s.card < 256 ^ 8 := lt64_to_256 hcard
  have hlist : readIdList e (finSorted s).length ∅
      (((finSorted s).map (write_binary e 8)).flatten ++ rest) =
      some (s, rest) := by
    rw [readIdList_block e rest ∅ (fun i hi => h i (mem_finSorted.mp hi)),
      foldl_insert_union, toFinset_finSorted, Finset.empty_union]
  simp only [writeIdSet, List.append_assoc, read_binary_write_binary e _ hc8,
    Option.bind]
  rw [show s.card = (finSorted s).length from (length_finSorted s).symm, hlist]

theorem readInnerEntries_body (e : Endian) {k : Str}
    {xs : List (MetaVal × Finset Nat)} (rest : List Nat) (idx : InvIndex)
    (cur : List (MetaVal × Finset Nat))
    (hfresh : lookupA idx k = none)
    (hnd : ((cur ++ xs).map Prod.fst).Nodup)
    (hwf : ∀ q ∈ xs, WFInnerEntry q) :
    readInnerEntries e k xs.length (idx ++ [(k, cur)])
        ((xs.map fun p => write_metadata_value e p.1 ++ writeIdSet e p.2).flatten
          ++ rest) =
      some (idx ++ [(k, cur ++ xs)], rest) := by
  induction xs generalizing cur with
  | nil => simp [readInnerEntries]
  | cons q xs ih =>
      obtain ⟨mv, ids⟩ := q
      obtain ⟨hmv, hcard, hids⟩ := hwf (mv, ids) (List.mem_cons_self _ _)
      have hmvfresh : lookupA cur mv = none := by
        rw [lookupA_eq_none]
        intro hmem
        have hn : (cur.map Prod.fst ++ mv :: xs.map Prod.fst).Nodup := by
          simpa using hnd
        rcases List.nodup_append.mp hn with ⟨h1, h2, h3⟩
        exact h3 hmem (List.mem_cons_self _ _)
      have hassign : assignIdx (idx ++ [(k, cur)]) k mv ids =
          idx ++ [(k, cur ++ [(mv, ids)])] := by
        rw [assignIdx, lookupA_append_last _ hfresh]
        simp only [Option.getD_some]
        rw [insertA_eq_append _ hmvfresh, insertA_append_entry _ _ hfresh]
      have hset : (read_binary e 8 (writeIdSet e ids ++
          ((xs.map fun p =>
            write_metadata_value e p.1 ++ writeIdSet e p.2).flatten ++ rest))).bind
          (fun p => readIdList e p.1 ∅ p.2) =
          some (ids, (xs.map fun p =>
            write_metadata_value e p.1 ++ writeIdSet e p.2).flatten ++ rest) :=
        readIdSet_writeIdSet e _ hcard hids
      have hnd' : ((cur ++ [(mv, ids)] ++ xs).map Prod.fst).Nodup := by
        simpa using hnd
      have hihx := ih (cur ++ [(mv, ids)]) hnd'
        (fun q hq => hwf q (List.mem_cons_of_mem _ hq))
      simp only [List.map_cons, List.flatten_cons, List.length_cons,
        List.append_assoc, readInnerEntries,
        read_write_metadata_value e _ hmv]
      simp only [Option.bind] at hset
      cases hrb : read_binary e 8 (writeIdSet e ids ++
          ((xs.map fun p =>
            write_metadata_value e p.1 ++ writeIdSet e p.2).flatten ++ rest)) with
      | none => rw [hrb] at hset; simp at hset
      | some p =>
          obtain ⟨cnt, rb⟩ := p
          rw [hrb] at hset
          simp at hset
          simp [hset, hassign, hihx]

theorem readInnerEntries_full (e : Endian) {k : Str}
    {xs : List (MetaVal × Finset Nat)} (rest : List Nat) (idx : InvIndex)
    (hfresh : lookupA idx k = none) (hxs : xs ≠ [])
    (hnd : (xs.map Prod.fst).Nodup)
    (hwf : ∀ q ∈ xs, WFInnerEntry q) :
    readInnerEntries e k xs.length idx
        ((xs.map fun p => write_metadata_value e p.1 ++ writeIdSet e p.2).flatten
          ++ rest) =
      some (idx ++ [(k, xs)], rest) := by
  cases xs with
  | nil => exact absurd rfl hxs
  | cons q xs =>
      obtain ⟨mv, ids⟩ := q
      obtain ⟨hmv, hcard, hids⟩ := hwf (mv, ids) (List.mem_cons_self _ _)
      have hassign : assignIdx idx k mv ids = idx ++ [(k, [(mv, ids)])] := by
        rw [assignIdx, hfresh]
        simp only [Option.getD_none]
        rw [show insertA ([] : List (MetaVal × Finset Nat)) mv ids = [(mv, ids)]
          from rfl, insertA_eq_append _ hfresh]
      have hset : (read_binary e 8 (writeIdSet e ids ++
          ((xs.map fun p =>
            write_metadata_value e p.1 ++ writeIdSet e p.2).flatten ++ rest))).bind
          (fun p => readIdList e p.1 ∅ p.2) =
          some (ids, (xs.map fun p =>
            write_metadata_value e p.1 ++ writeIdSet e p.2).flatten ++ rest) :=
        readIdSet_writeIdSet e _ hcard hids
      have hbody := readInnerEntries_body e rest idx [(mv, ids)] hfresh
        (by simpa using hnd) (fun q hq => hwf q (List.mem_cons_of_mem _ hq))
      simp only [List.map_cons, List.flatten_cons, List.length_cons,
        List.append_assoc, readInnerEntries,
        read_write_metadata_value e _ hmv]
      simp only [Option.bind] at hset
      cases hrb : read_binary e 8 (writeIdSet e ids ++
          ((xs.map fun p =>
            write_metadata_value e p.1 ++ writeIdSet e p.2).flatten ++ rest)) with
      | none => rw [hrb] at hset; simp at hset
      | some p =>
          obtain ⟨cnt, rb⟩ := p
          rw [hrb] at hset
          simp at hset
          simp [hset, hassign, hbody]

theorem readOuterEntries_body (e : Endian) {os : InvIndex} (rest : List Nat)
    (idx : InvIndex)
    (hnd : ((idx ++ os).map Prod.fst).Nodup)
    (hwf : ∀ p ∈ os, WFOuterEntry p) :
    readOuterEntries e os.length idx
        ((os.map fun p => write_string e p.1 ++ writeInner e p.2).flatten ++ rest) =
      some (idx ++ os, rest) := by
  induction os generalizing idx with
  | nil => simp [readOuterEntries]
  | cons p os ih =>
      obtain ⟨k, inner⟩ := p
      obtain ⟨hk, hilen, hind, hine, hiwf⟩ := hwf (k, inner) (List.mem_cons_self _ _)
      have hfresh : lookupA idx k = none := by
        rw [lookupA_eq_none]
        intro hmem
        have hn : (idx.map Prod.fst ++ k :: os.map Prod.fst).Nodup := by
          simpa using hnd
        rcases List.nodup_append.mp hn with ⟨h1, h2, h3⟩
        exact h3 hmem (List.mem_cons_self _ _)
      have hnd' : (((idx ++ [(k, inner)]) ++ os).map Prod.fst).Nodup := by
        simpa using hnd
      have hfull := readInnerEntries_full e
        ((os.map fun p => write_string e p.1 ++ writeInner e p.2).flatten ++ rest)
        idx hfresh hine hind hiwf
      have hihx := ih (idx ++ [(k, inner)]) hnd'
        (fun p hp => hwf p (List.mem_cons_of_mem _ hp))
      have hwi : writeInner e inner = write_binary e 8 inner.length ++
          (inner.map fun p =>
            write_metadata_value e p.1 ++ writeIdSet e p.2).flatten := rfl
      simp only [List.map_cons, List.flatten_cons, List.length_cons,
        List.append_assoc, readOuterEntries, read_string_write_string e _ hk.1]
      rw [hwi]
      simp only [List.append_assoc,
        read_binary_write_binary e _ (lt64_to_256 hilen)]
      simp only [List.append_assoc] at hfull
      simp [hfull, hihx]

section AListMore

variable {α β : Type} [DecidableEq α]

theorem insertA_ne_nil (l : List (α × β)) (a : α) (b : β) :
    insertA l a b ≠ [] := by
  cases l with
  | nil => simp [insertA]
  | cons kv rest =>
      obtain ⟨k, v⟩ := kv
      by_cases h : k = a <;> simp [insertA, h]

theorem mem_insertA_key_eq {l : List (α × β)} {a : α} {b : β}
    (hnd : (l.map Prod.fst).Nodup) {p : α × β} (hp : p ∈ insertA l a b)
    (hk : p.1 = a) : p = (a, b) := by
  induction l with
  | nil =>
      simp only [insertA, List.mem_singleton] at hp
      exact hp
  | cons kv rest ih =>
      obtain ⟨k, v⟩ := kv
      simp only [List.map_cons, List.nodup_cons] at hnd
      by_cases h : k = a
      · subst h
        simp only [insertA, if_pos rfl] at hp
        rcases List.mem_cons.mp hp with h1 | h1
        · exact h1
        · exact absurd (List.mem_map.mpr ⟨p, h1, hk⟩) hnd.1
      · simp only [insertA, if_neg h] at hp
        rcases List.mem_cons.mp hp with h1 | h1
        · exact absurd ((congrArg Prod.fst h1).symm.trans hk) h
        · exact ih hnd.2 h1

theorem mem_eraseA_key_ne {l : List (α × β)} {a : α}
    (hnd : (l.map Prod.fst).Nodup) {p : α × β} (hp : p ∈ eraseA l a) :
    p.1 ≠ a := by
  induction l with
  | nil => simp [eraseA] at hp
  | cons kv rest ih =>
      obtain ⟨k, v⟩ := kv
      simp only [List.map_cons, List.nodup_cons] at hnd
      by_cases h : k = a
      · subst h
        simp only [eraseA, if_pos rfl] at hp
        intro hcon
        exact hnd.1 (List.mem_map.mpr ⟨p, hp, hcon⟩)
      · simp only [eraseA, if_neg h] at hp
        rcases List.mem_cons.mp hp with h1 | h1
        · rw [h1]
          exact h
        · exact ih hnd.2 h1

theorem eraseA_eq_nil {l : List (α × β)} {a : α} (h : eraseA l a = []) :
    l = [] ∨ ∃ b, l = [(a, b)] := by
  cases l with
  | nil => exact Or.inl rfl
  | cons kv rest =>
      obtain ⟨k, v⟩ := kv
      by_cases hk : k = a
      · subst hk
        simp only [eraseA, if_pos rfl] at h
        subst h
        exact Or.inr ⟨v, rfl⟩
      · simp [eraseA, hk] at h

end AListMore

theorem postings_of_mem {idx : InvIndex} (hidx : IdxNodup idx)
    {p : Str × List (MetaVal × Finset Nat)} (hp : p ∈ idx)
    {q : MetaVal × Finset Nat} (hq : q ∈ p.2) :
    postings idx p.1 q.1 = some q.2 := by
  have h1 : lookupA idx p.1 = some p.2 := mem_lookupA hidx.1 hp
  have h2 : lookupA p.2 q.1 = some q.2 := mem_lookupA (hidx.2 p hp) hq
  simp [postings, h1, h2]

theorem mem_of_postings {idx : InvIndex} {k : Str} {v : MetaVal} {s : Finset Nat}
    (h : postings idx k v = some s) :
    ∃ inner, (k, inner) ∈ idx ∧ (v, s) ∈ inner := by
  rw [postings] at h
  cases hik : lookupA idx k with
  | none => rw [hik] at h; simp at h
  | some inner =>
      rw [hik] at h
      simp only [Option.bind] at h
      exact ⟨inner, lookupA_mem hik, lookupA_mem h⟩

theorem postings_addPosting (idx : InvIndex) (k : Str) (v : MetaVal)
    (id : VectorId) (k' : Str) (v' : MetaVal) :
    postings (addPosting idx k v id) k' v' =
      if k' = k ∧ v' = v then some (insert id ((postings idx k v).getD ∅))
      else postings idx k' v' := by
  have hmain : lookupA (addPosting idx k v id) k' =
      if k' = k then
        some (insertA ((lookupA idx k).getD [])
          v (insert id ((lookupA ((lookupA idx k).getD []) v).getD ∅)))
      else lookupA idx k' := by
    unfold addPosting
    by_cases hk : k' = k
    · subst hk
      rw [if_pos rfl, lookupA_insertA_self]
    · rw [if_neg hk, lookupA_insertA_ne _ _ (Ne.symm hk)]
  by_cases hk : k' = k
  · subst hk
    by_cases hv : v' = v
    · subst hv
      rw [if_pos ⟨rfl, rfl⟩]
      simp only [postings, hmain]
      simp only [if_true]
      simp only [Option.some_bind]
      cases hik : lookupA idx k' <;> simp [lookupA, lookupA_insertA_self]
    · rw [if_neg (by simp [hv])]
      simp only [postings, hmain]
      simp only [if_true]
      simp only [Option.some_bind]
      rw [lookupA_insertA_ne _ _ (Ne.symm hv)]
      cases hik : lookupA idx k' <;> simp [lookupA]
  · rw [if_neg (by simp [hk])]
    simp only [postings, hmain, if_neg hk]

theorem postings_eraseA_outer (idx : InvIndex)
    (hnd : (idx.map Prod.fst).Nodup) (k k' : Str) (v' : MetaVal) :
    postings (eraseA idx k) k' v' =
      if k' = k then none else postings idx k' v' := by
  by_cases h : k' = k
  · subst h
    simp [postings, lookupA_eraseA_self idx k' hnd]
  · rw [if_neg h, postings, postings, lookupA_eraseA_ne _ (Ne.symm h)]

theorem postings_insertA_outer (idx : InvIndex) (k : Str)
    (inner : List (MetaVal × Finset Nat)) (k' : Str) (v' : MetaVal) :
    postings (insertA idx k inner) k' v' =
      if k' = k then lookupA inner v' else postings idx k' v' := by
  by_cases h : k' = k
  · subst h
    simp [postings, lookupA_insertA_self]
  · rw [if_neg h, postings, postings, lookupA_insertA_ne _ _ (Ne.symm h)]

theorem postings_removePosting (idx : InvIndex)
    (hnd : (idx.map Prod.fst).Nodup)
    (hinnd : ∀ p ∈ idx, (p.2.map Prod.fst).Nodup)
    (k : Str) (v : MetaVal) (id : VectorId) (k' : Str) (v' : MetaVal) :
    postings (removePosting idx k v id) k' v' =
      if k' = k ∧ v' = v then
        (match postings idx k v with
         | none => none
         | some s => if s.erase id = ∅ then none else some (s.erase id))
      else postings idx k' v' := by
  cases hik : lookupA idx k with
  | none =>
      have hres : removePosting idx k v id = idx := by
        simp [removePosting, hik]
      rw [hres]
      by_cases h : k' = k ∧ v' = v
      · rw [if_pos h, h.1, h.2]
        simp [postings, hik]
      · rw [if_neg h]
  | some inner =>
      have hinner_nd : (inner.map Prod.fst).Nodup := hinnd _ (lookupA_mem hik)
      cases hiv : lookupA inner v with
      | none =>
          by_cases hemp : inner = []
          · subst hemp
            have hres : removePosting idx k v id = eraseA idx k := by
              simp [removePosting, hik, lookupA]
            rw [hres, postings_eraseA_outer idx hnd]
            by_cases hk : k' = k
            · subst hk
              rw [if_pos rfl]
              by_cases hv : v' = v
              · rw [if_pos ⟨rfl, hv⟩]
                simp [postings, hik, hiv]
              · rw [if_neg (by simp [hv])]
                simp [postings, hik, lookupA]
            · rw [if_neg hk, if_neg (by simp [hk])]
          · have hres : removePosting idx k v id = insertA idx k inner := by
              simp [removePosting, hik, hiv, hemp]
            rw [hres, postings_insertA_outer]
            by_cases hk : k' = k
            · subst hk
              rw [if_pos rfl]
              by_cases hv : v' = v
              · rw [if_pos ⟨rfl, hv⟩, hv]
                simp [postings, hik, hiv]
              · rw [if_neg (by simp [hv])]
                simp [postings, hik]
            · rw [if_neg hk, if_neg (by simp [hk])]
      | some s0 =>
          by_cases hs : s0.erase id = ∅
          · by_cases hev : eraseA inner v = []
            · have hres : removePosting idx k v id = eraseA idx k := by
                simp [removePosting, hik, hiv, hs, hev]
              rw [hres, postings_eraseA_outer idx hnd]
              by_cases hk : k' = k
              · subst hk
                rw [if_pos rfl]
                by_cases hv : v' = v
                · rw [if_pos ⟨rfl, hv⟩]
                  simp [postings, hik, hiv, hs]
                · rw [if_neg (by simp [hv])]
                  rcases eraseA_eq_nil hev with h0 | ⟨b, h0⟩
                  · subst h0
                    simp [lookupA] at hiv
                  · subst h0
                    have : lookupA [(v, b)] v' = none := by
                      simp [lookupA, Ne.symm hv]
                    simp [postings, hik, this]
              · rw [if_neg hk, if_neg (by simp [hk])]
            · have hres : removePosting idx k v id =
                  insertA idx k (eraseA inner v) := by
                simp [removePosting, hik, hiv, hs, hev]
              rw [hres, postings_insertA_outer]
              by_cases hk : k' = k
              · subst hk
                rw [if_pos rfl]
                by_cases hv : v' = v
                · rw [if_pos ⟨rfl, hv⟩, hv,
                    lookupA_eraseA_self inner v hinner_nd]
                  simp [postings, hik, hiv, hs]
                · rw [if_neg (by simp [hv]),
                    lookupA_eraseA_ne inner (Ne.symm hv)]
                  simp [postings, hik]
              · rw [if_neg hk, if_neg (by simp [hk])]
          · have hres : removePosting idx k v id =
                insertA idx k (insertA inner v (s0.erase id)) := by
              simp [removePosting, hik, hiv, hs, insertA_ne_nil]
            rw [hres, postings_insertA_outer]
            by_cases hk : k' = k
            · subst hk
              rw [if_pos rfl]
              by_cases hv : v' = v
              · rw [if_pos ⟨rfl, hv⟩, hv, lookupA_insertA_self]
                simp [postings, hik, hiv, hs]
              · rw [if_neg (by simp [hv]),
                  lookupA_insertA_ne _ _ (Ne.symm hv)]
                simp [postings, hik]
            · rw [if_neg hk, if_neg (by simp [hk])]

theorem IdxNodup_addPosting {idx : InvIndex} (h : IdxNodup idx)
    (k : Str) (v : MetaVal) (id : VectorId) :
    IdxNodup (addPosting idx k v id) := by
  constructor
  · exact insertA_keys_nodup _ _ _ h.1
  · intro p hp
    rcases mem_insertA _ _ _ hp with h1 | h1
    · exact h.2 p h1
    · subst h1
      apply insertA_keys_nodup
      cases hik : lookupA idx k with
      | none => simp
      | some inner =>
          simp only [hik, Option.getD_some]
          exact h.2 _ (lookupA_mem hik)

theorem IdxNodup_removePosting {idx : InvIndex} (h : IdxNodup idx)
    (k : Str) (v : MetaVal) (id : VectorId) :
    IdxNodup (removePosting idx k v id) := by
  have hgen : ∀ inner' : List (MetaVal × Finset Nat),
      (inner'.map Prod.fst).Nodup →
      IdxNodup (if inner' = [] then eraseA idx k else insertA idx k inner') := by
    intro inner' hnd'
    by_cases hemp : inner' = []
    · rw [if_pos hemp]
      refine ⟨eraseA_keys_nodup _ _ h.1, ?_⟩
      intro p hp
      exact h.2 p (mem_eraseA _ _ hp)
    · rw [if_neg hemp]
      refine ⟨insertA_keys_nodup _ _ _ h.1, ?_⟩
      intro p hp
      rcases mem_insertA _ _ _ hp with h1 | h1
      · exact h.2 p h1
      · subst h1
        exact hnd'
  cases hik : lookupA idx k with
  | none =>
      have hres : removePosting idx k v id = idx := by
        simp [removePosting, hik]
      rw [hres]
      exact h
  | some inner =>
      have hinner_nd : (inner.map Prod.fst).Nodup := h.2 _ (lookupA_mem hik)
      cases hiv : lookupA inner v with
      | none =>
          have hres : removePosting idx k v id =
              if inner = [] then eraseA idx k else insertA idx k inner := by
            simp [removePosting, hik, hiv]
          rw [hres]
          exact hgen inner hinner_nd
      | some s0 =>
          by_cases hs : s0.erase id = ∅
          · have hres : removePosting idx k v id =
                if eraseA inner v = [] then eraseA idx k
                else insertA idx k (eraseA inner v) := by
              simp [removePosting, hik, hiv, hs]
            rw [hres]
            exact hgen _ (eraseA_keys_nodup _ _ hinner_nd)
          · have hres : removePosting idx k v id =
                insertA idx k (insertA inner v (s0.erase id)) := by
              simp [removePosting, hik, hiv, hs, insertA_ne_nil]
            rw [hres]
            have := hgen (insertA inner v (s0.erase id))
              (insertA_keys_nodup _ _ _ hinner_nd)
            rw [if_neg (insertA_ne_nil _ _ _)] at this
            exact this

theorem IdxNodup_addPostings {idx : InvIndex} (h : IdxNodup idx)
    (meta : MetadataL) (id : VectorId) : IdxNodup (addPostings idx meta id) := by
  induction meta generalizing idx with
  | nil => exact h
  | cons kv rest ih =>
      rw [addPostings, List.foldl_cons]
      exact ih (IdxNodup_addPosting h kv.1 kv.2 id)

theorem IdxNodup_removeFold {idx : InvIndex} (h : IdxNodup idx)
    (meta : MetadataL) (id : VectorId) :
    IdxNodup (meta.foldl (fun i kv => removePosting i kv.1 kv.2 id) idx) := by
  induction meta generalizing idx with
  | nil => exact h
  | cons kv rest ih =>
      rw [List.foldl_cons]
      exact ih (IdxNodup_removePosting h kv.1 kv.2 id)

theorem postings_addPostings {meta : MetadataL} (id : VectorId)
    (hnd : (meta.map Prod.fst).Nodup) (idx : InvIndex) (k' : Str) (v' : MetaVal) :
    postings (addPostings idx meta id) k' v' =
      if (k', v') ∈ meta then some (insert id ((postings idx k' v').getD ∅))
      else postings idx k' v' := by
  induction meta generalizing idx with
  | nil => simp [addPostings]
  | cons kv rest ih =>
      obtain ⟨k, v⟩ := kv
      simp only [List.map_cons, List.nodup_cons] at hnd
      rw [addPostings, List.foldl_cons,
        show (rest.foldl (fun i kv => addPosting i kv.1 kv.2 id)
          (addPosting idx k v id)) = addPostings (addPosting idx k v id) rest id
          from rfl,
        ih hnd.2]
      by_cases hmem : (k', v') ∈ rest
      · have hkne : k' ≠ k := by
          intro hcon
          subst hcon
          exact hnd.1 (List.mem_map.mpr ⟨(k', v'), hmem, rfl⟩)
        rw [if_pos hmem, if_pos (List.mem_cons_of_mem _ hmem),
          postings_addPosting, if_neg (by simp [hkne])]
      · rw [if_neg hmem, postings_addPosting]
        by_cases heq : k' = k ∧ v' = v
        · have hmem2 : (k', v') ∈ (k, v) :: rest := by
            rw [heq.1, heq.2]
            exact List.mem_cons_self _ _
          rw [if_pos heq, if_pos hmem2, heq.1, heq.2]
        · have hmem2 : (k', v') ∉ (k, v) :: rest := by
            intro hcon
            rcases List.mem_cons.mp hcon with h1 | h1
            · exact heq ⟨congrArg Prod.fst h1, congrArg Prod.snd h1⟩
            · exact hmem h1
          rw [if_neg heq, if_neg hmem2]

theorem postings_removeFold {meta : MetadataL} (id : VectorId)
    (hnd : (meta.map Prod.fst).Nodup) (idx : InvIndex) (hidx : IdxNodup idx)
    (k' : Str) (v' : MetaVal) :
    postings (meta.foldl (fun i kv => removePosting i kv.1 kv.2 id) idx) k' v' =
      if (k', v') ∈ meta then
        (match postings idx k' v' with
         | none => none
         | some s => if s.erase id = ∅ then none else some (s.erase id))
      else postings idx k' v' := by
  induction meta generalizing idx with
  | nil => simp
  | cons kv rest ih =>
      obtain ⟨k, v⟩ := kv
      simp only [List.map_cons, List.nodup_cons] at hnd
      rw [List.foldl_cons, ih hnd.2 _ (IdxNodup_removePosting hidx k v id)]
      by_cases hmem : (k', v') ∈ rest
      · have hkne : k' ≠ k := by
          intro hcon
          subst hcon
          exact hnd.1 (List.mem_map.mpr ⟨(k', v'), hmem, rfl⟩)
        rw [if_pos hmem, if_pos (List.mem_cons_of_mem _ hmem),
          postings_removePosting idx hidx.1 hidx.2, if_neg (by simp [hkne])]
      · rw [if_neg hmem, postings_removePosting idx hidx.1 hidx.2]
        by_cases heq : k' = k ∧ v' = v
        · have hmem2 : (k', v') ∈ (k, v) :: rest := by
            rw [heq.1, heq.2]
            exact List.mem_cons_self _ _
          rw [if_pos heq, if_pos hmem2, heq.1, heq.2]
        · have hmem2 : (k', v') ∉ (k, v) :: rest := by
            intro hcon
            rcases List.mem_cons.mp hcon with h1 | h1
            · exact heq ⟨congrArg Prod.fst h1, congrArg Prod.snd h1⟩
            · exact hmem h1
          rw [if_neg heq, if_neg hmem2]

theorem IdxWF_addPosting {idx : InvIndex} (h : IdxWF idx) {k : Str}
    {v : MetaVal} {id : VectorId} (hk : WFStr k) (hv : WFVal v)
    (hid : id < 2 ^ 64) : IdxWF (addPosting idx k v id) := by
  obtain ⟨hnd, hent⟩ := h
  refine ⟨insertA_keys_nodup _ _ _ hnd, ?_⟩
  intro p hp
  rcases mem_insertA _ _ _ hp with h1 | h1
  · exact hent p h1
  · subst h1
    cases hik : lookupA idx k with
    | none =>
        simp only [hik, Option.getD_none]
        refine ⟨hk, ?_, insertA_ne_nil _ _ _, ?_⟩
        · simp [insertA, lookupA]
        · intro q hq
          simp only [lookupA, Option.getD_none, insertA,
            List.mem_singleton] at hq
          subst hq
          refine ⟨⟨Finset.insert_ne_empty _ _, hv⟩, ?_⟩
          intro i hi
          simp only [Finset.mem_insert, Finset.not_mem_empty, or_false] at hi
          subst hi
          exact hid
    | some inner0 =>
        have hold := hent (k, inner0) (lookupA_mem hik)
        simp only [hik, Option.getD_some]
        refine ⟨hk, insertA_keys_nodup _ _ _ hold.2.1, insertA_ne_nil _ _ _, ?_⟩
        intro q hq
        rcases mem_insertA _ _ _ hq with h2 | h2
        · exact hold.2.2.2 q h2
        · subst h2
          refine ⟨⟨Finset.insert_ne_empty _ _, hv⟩, ?_⟩
          intro i hi
          rcases Finset.mem_insert.mp hi with h3 | h3
          · subst h3
            exact hid
          · cases hivv : lookupA inner0 v with
            | none => rw [hivv] at h3; simp at h3
            | some s1 =>
                rw [hivv] at h3
                simp only [Option.getD_some] at h3
                exact (hold.2.2.2 (v, s1) (lookupA_mem hivv)).2 i h3

theorem IdxWF_removePosting {idx : InvIndex} (h : IdxWF idx) (k : Str)
    (v : MetaVal) (id : VectorId) : IdxWF (removePosting idx k v id) := by
  obtain ⟨hnd, hent⟩ := h
  cases hik : lookupA idx k with
  | none =>
      have hres : removePosting idx k v id = idx := by
        simp [removePosting, hik]
      rw [hres]
      exact ⟨hnd, hent⟩
  | some inner =>
      have hold := hent (k, inner) (lookupA_mem hik)
      have hgen : ∀ inner' : List (MetaVal × Finset Nat),
          (inner'.map Prod.fst).Nodup →
          (∀ q ∈ inner', (q.2 ≠ ∅ ∧ WFVal q.1) ∧ ∀ i ∈ q.2, i < 2 ^ 64) →
          IdxWF (if inner' = [] then eraseA idx k else insertA idx k inner') := by
        intro inner' hnd' hq'
        by_cases hemp : inner' = []
        · rw [if_pos hemp]
          refine ⟨eraseA_keys_nodup _ _ hnd, ?_⟩
          intro p hp
          exact hent p (mem_eraseA _ _ hp)
        · rw [if_neg hemp]
          refine ⟨insertA_keys_nodup _ _ _ hnd, ?_⟩
          intro p hp
          rcases mem_insertA _ _ _ hp with h1 | h1
          · exact hent p h1
          · subst h1
            exact ⟨hold.1, hnd', hemp, hq'⟩
      cases hiv : lookupA inner v with
      | none =>
          have hres : removePosting idx k v id =
              if inner = [] then eraseA idx k else insertA idx k inner := by
            simp [removePosting, hik, hiv]
          rw [hres]
          exact hgen inner hold.2.1 hold.2.2.2
      | some s0 =>
          by_cases hs : s0.erase id = ∅
          · have hres : removePosting idx k v id =
                if eraseA inner v = [] then eraseA idx k
                else insertA idx k (eraseA inner v) := by
              simp [removePosting, hik, hiv, hs]
            rw [hres]
            exact hgen _ (eraseA_keys_nodup _ _ hold.2.1)
              (fun q hq => hold.2.2.2 q (mem_eraseA _ _ hq))
          · have hres : removePosting idx k v id =
                insertA idx k (insertA inner v (s0.erase id)) := by
              simp [removePosting, hik, hiv, hs, insertA_ne_nil]
            rw [hres]
            have hgq : ∀ q ∈ insertA inner v (s0.erase id),
                (q.2 ≠ ∅ ∧ WFVal q.1) ∧ ∀ i ∈ q.2, i < 2 ^ 64 := by
              intro q hq
              rcases mem_insertA _ _ _ hq with h1 | h1
              · exact hold.2.2.2 q h1
              · subst h1
                refine ⟨⟨hs, (hold.2.2.2 (v, s0) (lookupA_mem hiv)).1.2⟩, ?_⟩
                intro i hi
                exact (hold.2.2.2 (v, s0) (lookupA_mem hiv)).2 i
                  (Finset.mem_of_mem_erase hi)
            have := hgen (insertA inner v (s0.erase id))
              (insertA_keys_nodup _ _ _ hold.2.1) hgq
            rw [if_neg (insertA_ne_nil _ _ _)] at this
            exact this

theorem IdxWF_addPostings {idx : InvIndex} (h : IdxWF idx) {meta : MetadataL}
    (id : VectorId) (hm : ∀ kv ∈ meta, WFStr kv.1 ∧ WFVal kv.2)
    (hid : id < 2 ^ 64) : IdxWF (addPostings idx meta id) := by
  induction meta generalizing idx with
  | nil => exact h
  | cons kv rest ih =>
      rw [addPostings, List.foldl_cons]
      exact ih
        (IdxWF_addPosting h (hm kv (List.mem_cons_self _ _)).1
          (hm kv (List.mem_cons_self _ _)).2 hid)
        (fun p hp => hm p (List.mem_cons_of_mem _ hp))

theorem IdxWF_removeFold {idx : InvIndex} (h : IdxWF idx) (meta : MetadataL)
    (id : VectorId) :
    IdxWF (meta.foldl (fun i kv => removePosting i kv.1 kv.2 id) idx) := by
  induction meta generalizing idx with
  | nil => exact h
  | cons kv rest ih =>
      rw [List.foldl_cons]
      exact ih (IdxWF_removePosting h kv.1 kv.2 id)

theorem IdxWF_nodup {idx : InvIndex} (h : IdxWF idx) : IdxNodup idx :=
  ⟨h.1, fun p hp => (h.2 p hp).2.1⟩

theorem addPoint_noop {h : HnswState} {lab : VectorId} {v : Vec}
    (hex : ∃ s ∈ h.slots, s.label = lab)
    (hall : ∀ s ∈ h.slots, s.label = lab → s = ⟨lab, v, false⟩) :
    Hnsw.addPoint h v lab = some h := by
  obtain ⟨s0, hs0, hl0⟩ := hex
  have hany : h.slots.any (fun s => s.label == lab) = true := by
    rw [List.any_eq_true]
    exact ⟨s0, hs0, by simp [hl0]⟩
  have hmap : (h.slots.map fun s =>
      if s.label == lab then ({ s with vec := v, deleted := false } : HnswSlot)
      else s) = h.slots := by
    have hcong : ∀ s ∈ h.slots,
        (if s.label == lab then ({ s with vec := v, deleted := false } : HnswSlot)
         else s) = (fun x => x) s := by
      intro s hs
      by_cases hl : s.label = lab
      · have hse := hall s hs hl
        rw [hse]
        simp
      · simp [hl]
    rw [List.map_congr_left hcong]
    simp
  simp only [Hnsw.addPoint, hany, if_pos, hmap]

theorem reinsert_noop {h : HnswState} {stor : List (VectorId × VectorData)}
    (hinv : ∀ kv ∈ stor,
      (∃ s ∈ h.slots, s.label = kv.1) ∧
        ∀ s ∈ h.slots, s.label = kv.1 → s = ⟨kv.1, kv.2.vector, false⟩) :
    stor.foldl (fun acc kv => (Hnsw.addPoint acc kv.2.vector kv.1).getD acc) h
      = h := by
  induction stor with
  | nil => rfl
  | cons kv rest ih =>
      have h1 := hinv kv (List.mem_cons_self _ _)
      rw [List.foldl_cons, addPoint_noop h1.1 h1.2]
      exact ih (fun kv2 h2 => hinv kv2 (List.mem_cons_of_mem _ h2))

theorem entries_eq_of_key {α β : Type} [DecidableEq α] {l : List (α × β)}
    (hnd : (l.map Prod.fst).Nodup) {p q : α × β} (hp : p ∈ l) (hq : q ∈ l)
    (hk : p.1 = q.1) : p = q := by
  induction l with
  | nil => simp at hp
  | cons kv rest ih =>
      simp only [List.map_cons, List.nodup_cons] at hnd
      rcases List.mem_cons.mp hp with h1 | h1 <;>
        rcases List.mem_cons.mp hq with h2 | h2
      · rw [h1, h2]
      · subst h1
        exact absurd (List.mem_map.mpr ⟨q, h2, hk.symm⟩) hnd.1
      · subst h2
        exact absurd (List.mem_map.mpr ⟨p, h1, hk⟩) hnd.1
      · exact ih hnd.2 h1 h2

/-- Labels are preserved by the slot updates of `addPoint` and
`markDelete`; slots whose label differs from the touched one are left
unchanged by `markDelete`. -/
theorem markDelete_preserves_other {h : HnswState} {lab l2 : VectorId}
    (hne : l2 ≠ lab) :
    ((∃ s ∈ (Hnsw.markDelete h lab).slots, s.label = l2) ↔
      ∃ s ∈ h.slots, s.label = l2) ∧
    ∀ s2 ∈ (Hnsw.markDelete h lab).slots, s2.label = l2 →
      s2 ∈ h.slots := by
  constructor
  · constructor
    · rintro ⟨s2, hs2, hl2⟩
      rcases List.mem_map.mp hs2 with ⟨s, hs, hform⟩
      by_cases hl : s.label = lab
      · rw [← hform] at hl2
        simp [hl] at hl2
        exact absurd hl2.symm hne
      · rw [← hform] at hl2
        simp only [beq_iff_eq, hl, if_neg, if_false] at hl2
        exact ⟨s, hs, by simpa [hl] using hl2⟩
    · rintro ⟨s, hs, hl⟩
      refine ⟨s, List.mem_map.mpr ⟨s, hs, ?_⟩, hl⟩
      have : ¬ s.label = lab := fun hc => hne (hl ▸ hc ▸ rfl)
      simp [this]
  · intro s2 hs2 hl2
    rcases List.mem_map.mp hs2 with ⟨s, hs, hform⟩
    by_cases hl : s.label = lab
    · rw [← hform] at hl2
      simp [hl] at hl2
      exact absurd hl2.symm hne
    · rw [← hform]
      simpa [hl] using hs

theorem add_eq_dim {alloc : Bool} {st : ImplState} {id : VectorId} {vec : Vec}
    {meta : MetadataL} (h : vec.length ≠ st.config.vector_dim) :
    Impl.add alloc st id vec meta = (false, st) := by
  simp [Impl.add, h]

theorem add_eq_direct {alloc : Bool} {st : ImplState} {id : VectorId}
    {vec : Vec} {meta : MetadataL} {h' : HnswState}
    (hdim : vec.length = st.config.vector_dim)
    (haddp : Hnsw.addPoint (addPreHnsw st id) vec id = some h') :
    Impl.add alloc st id vec meta =
      (true, ⟨st.config, insertA st.storage id ⟨vec, meta⟩,
        addPostings (addMidIdx st id) meta id, h'⟩) := by
  by_cases hex : (lookupA st.storage id).isSome
  · rw [addPreHnsw, if_pos hex] at haddp
    simp [Impl.add, hdim, addMidIdx, hex, haddp]
  · rw [addPreHnsw, if_neg hex] at haddp
    simp [Impl.add, hdim, addMidIdx, hex, haddp]

theorem add_eq_nalloc {st : ImplState} {id : VectorId} {vec : Vec}
    {meta : MetadataL}
    (hdim : vec.length = st.config.vector_dim)
    (haddp : Hnsw.addPoint (addPreHnsw st id) vec id = none) :
    Impl.add false st id vec meta =
      (false, ⟨st.config, insertA st.storage id ⟨vec, meta⟩,
        addMidIdx st id, addPreHnsw st id⟩) := by
  by_cases hex : (lookupA st.storage id).isSome
  · rw [addPreHnsw, if_pos hex] at haddp
    simp [Impl.add, Impl.rebuild_index, hdim, addMidIdx, addPreHnsw, hex, haddp]
  · rw [addPreHnsw, if_neg hex] at haddp
    simp [Impl.add, Impl.rebuild_index, hdim, addMidIdx, addPreHnsw, hex, haddp]

theorem add_eq_rebuild {st : ImplState} {id : VectorId} {vec : Vec}
    {meta : MetadataL} {hre h2 : HnswState}
    (hdim : vec.length = st.config.vector_dim)
    (haddp : Hnsw.addPoint (addPreHnsw st id) vec id = none)
    (hrre : reinsertAllE
      (Hnsw.init (addProposed st id vec meta))
      (insertA st.storage id ⟨vec, meta⟩) = some hre)
    (hretry : Hnsw.addPoint hre vec id = some h2) :
    Impl.add true st id vec meta =
      (true, ⟨⟨st.config.vector_dim, addProposed st id vec meta⟩,
        insertA st.storage id ⟨vec, meta⟩,
        addPostings (addMidIdx st id) meta id, h2⟩) := by
  by_cases hex : (lookupA st.storage id).isSome
  · rw [addPreHnsw, if_pos hex] at haddp
    rw [addProposed] at hrre
    simp [Impl.add, Impl.rebuild_index, addProposed, hdim, addMidIdx, hex,
      haddp, hrre, hretry]
  · rw [addPreHnsw, if_neg hex] at haddp
    rw [addProposed] at hrre
    simp [Impl.add, Impl.rebuild_index, addProposed, hdim, addMidIdx, hex,
      haddp, hrre, hretry]

theorem remove_eq_absent {st : ImplState} {id : VectorId}
    (h : lookupA st.storage id = none) : Impl.remove st id = (false, st) := by
  simp [Impl.remove, h]

theorem remove_eq_present {st : ImplState} {id : VectorId}
    (h : (lookupA st.storage id).isSome) :
    Impl.remove st id =
      (true, ⟨st.config, eraseA st.storage id,
        Impl.remove_from_metadata_index st id,
        Hnsw.markDelete st.hnsw id⟩) := by
  have : ¬ (lookupA st.storage id).isNone := by
    cases hlk : lookupA st.storage id
    · simp [hlk] at h
    · simp
  simp [Impl.remove, this]

theorem reinsertAllE_go {cap : Nat} {stor : List (VectorId × VectorData)}
    (acc : List HnswSlot)
    (hnd : (stor.map Prod.fst).Nodup)
    (hfresh : ∀ kv ∈ stor, ∀ s ∈ acc, s.label ≠ kv.1)
    (hcap : acc.length + stor.length ≤ cap) :
    reinsertAllE ⟨cap, acc⟩ stor =
      some ⟨cap, acc ++ stor.map (fun kv => ⟨kv.1, kv.2.vector, false⟩)⟩ := by
  induction stor generalizing acc with
  | nil => simp [reinsertAllE]
  | cons kv rest ih =>
      obtain ⟨id, vd⟩ := kv
      simp only [List.map_cons, List.nodup_cons] at hnd
      have hany : (acc.any fun s => s.label == id) = false := by
        rw [List.any_eq_false]
        intro s hs
        simpa using hfresh (id, vd) (List.mem_cons_self _ _) s hs
      have hlt : ¬ cap ≤ acc.length := by
        simp only [List.length_cons] at hcap
        omega
      have hstep : Hnsw.addPoint ⟨cap, acc⟩ vd.vector id =
          some ⟨cap, acc ++ [⟨id, vd.vector, false⟩]⟩ := by
        rw [Hnsw.addPoint]
        simp [hany, hlt]
      rw [reinsertAllE, List.foldlM_cons]
      simp only [show (Hnsw.addPoint ⟨cap, acc⟩ vd.vector id) = _ from hstep,
        Option.some_bind]
      have hfresh' : ∀ kv2 ∈ rest, ∀ s ∈ acc ++ [⟨id, vd.vector, false⟩],
          s.label ≠ kv2.1 := by
        intro kv2 hkv2 s hs
        rcases List.mem_append.mp hs with h1 | h1
        · exact hfresh kv2 (List.mem_cons_of_mem _ hkv2) s h1
        · rw [List.mem_singleton.mp h1]
          intro hcon
          exact hnd.1 (List.mem_map.mpr ⟨kv2, hkv2, hcon.symm⟩)
      have := ih (acc ++ [⟨id, vd.vector, false⟩]) hnd.2 hfresh'
        (by simp only [List.length_append, List.length_cons,
          List.length_nil] at hcap ⊢; omega)
      rw [reinsertAllE] at this
      simp [this, List.append_assoc]

theorem reinsertAllE_fresh {cap : Nat} {stor : List (VectorId × VectorData)}
    (hnd : (stor.map Prod.fst).Nodup) (hcap : stor.length ≤ cap) :
    reinsertAllE (Hnsw.init cap) stor =
      some ⟨cap, stor.map (fun kv => ⟨kv.1, kv.2.vector, false⟩)⟩ := by
  have := @reinsertAllE_go cap stor [] hnd
    (by intro kv hkv s hs; simp at hs) (by simpa using hcap)
  simpa [Hnsw.init] using this

theorem InvHnswP_fresh {stor : List (VectorId × VectorData)} {cap : Nat}
    (hnd : (stor.map Prod.fst).Nodup) :
    InvHnswP stor ⟨cap, stor.map fun kv => ⟨kv.1, kv.2.vector, false⟩⟩ := by
  intro kv hkv
  constructor
  · exact ⟨⟨kv.1, kv.2.vector, false⟩, List.mem_map.mpr ⟨kv, hkv, rfl⟩, rfl⟩
  · intro s hs hl
    rcases List.mem_map.mp hs with ⟨kv', hkv', hform⟩
    have hk : kv'.1 = kv.1 := by rw [← hform] at hl; exact hl
    have : kv' = kv := entries_eq_of_key hnd hkv' hkv hk
    rw [← hform, this]

theorem InvHnswP_addPreHnsw {st : ImplState} (hinv : InvHnsw st)
    (id : VectorId) :
    ∀ kv ∈ st.storage, kv.1 ≠ id →
      (∃ s ∈ (addPreHnsw st id).slots, s.label = kv.1) ∧
        ∀ s ∈ (addPreHnsw st id).slots, s.label = kv.1 →
          s = ⟨kv.1, kv.2.vector, false⟩ := by
  intro kv hkv hne
  rw [addPreHnsw]
  by_cases hex : (lookupA st.storage id).isSome
  · rw [if_pos hex]
    have hmd := @markDelete_preserves_other st.hnsw id kv.1 hne
    exact ⟨hmd.1.mpr (hinv kv hkv).1,
      fun s hs hl => (hinv kv hkv).2 s (hmd.2 s hs hl) hl⟩
  · rw [if_neg hex]
    exact hinv kv hkv

theorem InvHnswP_update {stor : List (VectorId × VectorData)} {g1 : HnswState}
    {id : VectorId} {vec : Vec} {meta : MetadataL}
    (hnd : (stor.map Prod.fst).Nodup)
    (hpart : ∀ kv ∈ stor, kv.1 ≠ id →
      (∃ s ∈ g1.slots, s.label = kv.1) ∧
        ∀ s ∈ g1.slots, s.label = kv.1 → s = ⟨kv.1, kv.2.vector, false⟩)
    (hany : ∃ s ∈ g1.slots, s.label = id) :
    InvHnswP (insertA stor id ⟨vec, meta⟩)
      { g1 with slots := g1.slots.map fun s =>
          if s.label == id then { s with vec := vec, deleted := false }
          else s } := by
  intro kv hkv
  by_cases hk : kv.1 = id
  · have hkv_eq : kv = (id, ⟨vec, meta⟩) := mem_insertA_key_eq hnd hkv hk
    obtain ⟨s0, hs0, hl0⟩ := hany
    constructor
    · refine ⟨{ s0 with vec := vec, deleted := false },
        List.mem_map.mpr ⟨s0, hs0, by simp [hl0]⟩, ?_⟩
      simp [hl0, hk]
    · intro s hs hl
      rcases List.mem_map.mp hs with ⟨s1, hs1, hform⟩
      by_cases hl1 : s1.label = id
      · rw [← hform]
        simp only [hl1, beq_self_eq_true, if_pos]
        rw [hkv_eq]
      · rw [← hform] at hl
        simp only [beq_iff_eq, hl1, if_neg, if_false] at hl
        exact absurd (by simpa [hl1] using hl.trans hk : s1.label = id) hl1
  · have hkv_mem : kv ∈ stor := by
      rcases mem_insertA _ _ _ hkv with h1 | h1
      · exact h1
      · exact absurd (congrArg Prod.fst h1) hk
    obtain ⟨hpe, hpa⟩ := hpart kv hkv_mem hk
    constructor
    · obtain ⟨s, hs, hl⟩ := hpe
      have hsl : ¬ s.label = id := fun hc => hk ((hl.symm.trans hc) ▸ rfl)
      refine ⟨s, List.mem_map.mpr ⟨s, hs, by simp [hsl]⟩, hl⟩
    · intro s2 hs2 hl2
      rcases List.mem_map.mp hs2 with ⟨s1, hs1, hform⟩
      by_cases hl1 : s1.label = id
      · rw [← hform] at hl2
        simp only [hl1, beq_self_eq_true, if_pos] at hl2
        exact absurd hl2.symm hk
      · rw [← hform] at hl2 ⊢
        simp only [beq_iff_eq, hl1, if_neg, if_false] at hl2 ⊢
        exact hpa s1 hs1 hl2

theorem InvHnswP_append {stor : List (VectorId × VectorData)} {g1 : HnswState}
    {id : VectorId} {vec : Vec} {meta : MetadataL}
    (hnd : (stor.map Prod.fst).Nodup)
    (hpart : ∀ kv ∈ stor, kv.1 ≠ id →
      (∃ s ∈ g1.slots, s.label = kv.1) ∧
        ∀ s ∈ g1.slots, s.label = kv.1 → s = ⟨kv.1, kv.2.vector, false⟩)
    (hnone : ∀ s ∈ g1.slots, s.label ≠ id) :
    InvHnswP (insertA stor id ⟨vec, meta⟩)
      { g1 with slots := g1.slots ++ [⟨id, vec, false⟩] } := by
  intro kv hkv
  by_cases hk : kv.1 = id
  · have hkv_eq : kv = (id, ⟨vec, meta⟩) := mem_insertA_key_eq hnd hkv hk
    constructor
    · exact ⟨⟨id, vec, false⟩, by simp, hk.symm⟩
    · intro s hs hl
      rcases List.mem_append.mp hs with h1 | h1
      · exact absurd (hl.trans hk) (hnone s h1)
      · rw [List.mem_singleton.mp h1, hkv_eq]
  · have hkv_mem : kv ∈ stor := by
      rcases mem_insertA _ _ _ hkv with h1 | h1
      · exact h1
      · exact absurd (congrArg Prod.fst h1) hk
    obtain ⟨hpe, hpa⟩ := hpart kv hkv_mem hk
    constructor
    · obtain ⟨s, hs, hl⟩ := hpe
      exact ⟨s, List.mem_append.mpr (Or.inl hs), hl⟩
    · intro s hs hl
      rcases List.mem_append.mp hs with h1 | h1
      · exact hpa s h1 hl
      · rw [List.mem_singleton.mp h1] at hl
        exact absurd hl (by simpa using Ne.symm hk)

theorem InvHnswP_addPoint_step {stor : List (VectorId × VectorData)}
    {g1 h' : HnswState} {id : VectorId} {vec : Vec} {meta : MetadataL}
    (hnd : (stor.map Prod.fst).Nodup)
    (hpart : ∀ kv ∈ stor, kv.1 ≠ id →
      (∃ s ∈ g1.slots, s.label = kv.1) ∧
        ∀ s ∈ g1.slots, s.label = kv.1 → s = ⟨kv.1, kv.2.vector, false⟩)
    (hsome : Hnsw.addPoint g1 vec id = some h') :
    InvHnswP (insertA stor id ⟨vec, meta⟩) h' := by
  rw [Hnsw.addPoint] at hsome
  by_cases hany : (g1.slots.any fun s => s.label == id) = true
  · rw [if_pos hany] at hsome
    obtain rfl := Option.some.inj hsome
    refine InvHnswP_update hnd hpart ?_
    rcases List.any_eq_true.mp hany with ⟨s0, hs0, hl0⟩
    exact ⟨s0, hs0, by simpa using hl0⟩
  · rw [if_neg hany] at hsome
    by_cases hcap : g1.capacity ≤ g1.slots.length
    · rw [if_pos hcap] at hsome
      cases hsome
    · rw [if_neg hcap] at hsome
      obtain rfl := Option.some.inj hsome
      refine InvHnswP_append hnd hpart ?_
      intro s hs hcon
      exact hany (List.any_eq_true.mpr ⟨s, hs, by simpa using hcon⟩)

theorem InvHnswP_remove {st : ImplState} (hinv : InvHnsw st)
    (hnd : (st.storage.map Prod.fst).Nodup) (id : VectorId) :
    InvHnswP (eraseA st.storage id) (Hnsw.markDelete st.hnsw id) := by
  intro kv hkv
  have hne : kv.1 ≠ id := mem_eraseA_key_ne hnd hkv
  have hmem : kv ∈ st.storage := mem_eraseA _ _ hkv
  have hmd := @markDelete_preserves_other st.hnsw id kv.1 hne
  exact ⟨hmd.1.mpr (hinv kv hmem).1,
    fun s hs hl => (hinv kv hmem).2 s (hmd.2 s hs hl) hl⟩

theorem postings_addMidIdx {st : ImplState} (id : VectorId)
    (hidx : IdxNodup st.metadata_index)
    (hswf : ∀ kv ∈ st.storage, (kv.2.metadata.map Prod.fst).Nodup)
    (k : Str) (v : MetaVal) :
    postings (addMidIdx st id) k v =
      if (k, v) ∈ oldMetaOf st id then
        (match postings st.metadata_index k v with
         | none => none
         | some s => if s.erase id = ∅ then none else some (s.erase id))
      else postings st.metadata_index k v := by
  cases hlk : lookupA st.storage id with
  | none => simp [addMidIdx, oldMetaOf, hlk]
  | some vd0 =>
      have hmeta_nd : (vd0.metadata.map Prod.fst).Nodup :=
        hswf _ (lookupA_mem hlk)
      have hmid : addMidIdx st id =
          vd0.metadata.foldl (fun idx kv => removePosting idx kv.1 kv.2 id)
            st.metadata_index := by
        simp [addMidIdx, Impl.remove_from_metadata_index, hlk]
      rw [hmid, oldMetaOf, hlk]
      exact postings_removeFold id hmeta_nd _ hidx k v

theorem mem_oldMetaOf {st : ImplState} {id : VectorId} {k : Str} {v : MetaVal} :
    (k, v) ∈ oldMetaOf st id ↔
      ∃ vd, lookupA st.storage id = some vd ∧ (k, v) ∈ vd.metadata := by
  rw [oldMetaOf]
  cases hlk : lookupA st.storage id <;> simp

theorem IndexSync_add_parts {st : ImplState}
    (_hsnd : (st.storage.map Prod.fst).Nodup)
    (hidx : IdxNodup st.metadata_index)
    (hswf : ∀ kv ∈ st.storage, (kv.2.metadata.map Prod.fst).Nodup)
    (hsync : IndexSync st)
    {id : VectorId} {vec : Vec} {meta : MetadataL} (hm : WFMeta meta)
    (cfg' : Config) (h' : HnswState) :
    IndexSync ⟨cfg', insertA st.storage id ⟨vec, meta⟩,
      addPostings (addMidIdx st id) meta id, h'⟩ := by
  have hmid := postings_addMidIdx id hidx hswf
  have hfin : ∀ k v, postings (addPostings (addMidIdx st id) meta id) k v =
      if (k, v) ∈ meta then
        some (insert id ((postings (addMidIdx st id) k v).getD ∅))
      else postings (addMidIdx st id) k v :=
    fun k v => postings_addPostings id hm.2.1 _ k v
  constructor
  · -- forward
    intro id' vd' hlk' k v hmv
    simp only at hlk' ⊢
    by_cases hid' : id' = id
    · subst hid'
      rw [lookupA_insertA_self] at hlk'
      obtain rfl := Option.some.inj hlk'
      have hmem : (k, v) ∈ meta := lookupA_mem hmv
      rw [hfin k v, if_pos hmem]
      exact ⟨_, rfl, Finset.mem_insert_self _ _⟩
    · rw [lookupA_insertA_ne _ _ (fun hc => hid' hc.symm)] at hlk'
      obtain ⟨s, hs, hmem⟩ := hsync.1 id' vd' hlk' k v hmv
      have hmidkv : ∃ s1, postings (addMidIdx st id) k v = some s1 ∧
          id' ∈ s1 := by
        rw [hmid k v]
        by_cases hold : (k, v) ∈ oldMetaOf st id
        · rw [if_pos hold, hs]
          have hne : id' ∈ s.erase id := Finset.mem_erase.mpr ⟨hid', hmem⟩
          have hnemp : ¬ s.erase id = ∅ := by
            intro hc
            rw [hc] at hne
            simp at hne
          simp only [hnemp, if_neg, if_false]
          exact ⟨_, rfl, hne⟩
        · rw [if_neg hold]
          exact ⟨s, hs, hmem⟩
      obtain ⟨s1, hs1, hmem1⟩ := hmidkv
      rw [hfin k v]
      by_cases hkv : (k, v) ∈ meta
      · rw [if_pos hkv, hs1]
        exact ⟨_, rfl, Finset.mem_insert_of_mem hmem1⟩
      · rw [if_neg hkv]
        exact ⟨s1, hs1, hmem1⟩
  · -- backward
    intro k v s hps id' hid'
    simp only at hps ⊢
    rw [hfin k v] at hps
    have hback_mid : ∀ s1, postings (addMidIdx st id) k v = some s1 →
        ∀ id1 ∈ s1, id1 ≠ id ∧ ∃ vd, lookupA st.storage id1 = some vd ∧
          lookupA vd.metadata k = some v := by
      intro s1 hs1 id1 hid1
      rw [hmid k v] at hs1
      by_cases hold : (k, v) ∈ oldMetaOf st id
      · rw [if_pos hold] at hs1
        cases hops : postings st.metadata_index k v with
        | none => rw [hops] at hs1; cases hs1
        | some s0 =>
            rw [hops] at hs1
            by_cases hemp : s0.erase id = ∅
            · simp only [hemp, if_pos] at hs1
              cases hs1
            · simp only [hemp, if_neg, if_false] at hs1
              obtain rfl := Option.some.inj hs1
              have h1 := Finset.mem_erase.mp hid1
              exact ⟨h1.1, hsync.2 k v s0 hops id1 h1.2⟩
      · rw [if_neg hold] at hs1
        have hvd := hsync.2 k v s1 hs1 id1 hid1
        refine ⟨?_, hvd⟩
        intro hc
        subst hc
        obtain ⟨vd0, hlk0, hmv0⟩ := hvd
        exact hold (mem_oldMetaOf.mpr ⟨vd0, hlk0, lookupA_mem hmv0⟩)
    by_cases hkv : (k, v) ∈ meta
    · rw [if_pos hkv] at hps
      obtain rfl := Option.some.inj hps
      rcases Finset.mem_insert.mp hid' with h1 | h1
      · subst h1
        refine ⟨⟨vec, meta⟩, ?_, mem_lookupA hm.2.1 hkv⟩
        exact lookupA_insertA_self _ _ _
      · cases hs1 : postings (addMidIdx st id) k v with
        | none =>
            rw [hs1] at h1
            simp at h1
        | some s1 =>
            rw [hs1] at h1
            simp only [Option.getD_some] at h1
            obtain ⟨hne, vd0, hlk0, hmv0⟩ := hback_mid s1 hs1 id' h1
            exact ⟨vd0, by
              rw [lookupA_insertA_ne _ _ (fun hc => hne hc.symm)]
              exact hlk0, hmv0⟩
    · rw [if_neg hkv] at hps
      obtain ⟨hne, vd0, hlk0, hmv0⟩ := hback_mid s hps id' hid'
      exact ⟨vd0, by
        rw [lookupA_insertA_ne _ _ (fun hc => hne hc.symm)]
        exact hlk0, hmv0⟩

theorem IndexSync_remove_parts {st : ImplState}
    (hsnd : (st.storage.map Prod.fst).Nodup)
    (hidx : IdxNodup st.metadata_index)
    (hswf : ∀ kv ∈ st.storage, (kv.2.metadata.map Prod.fst).Nodup)
    (hsync : IndexSync st) {id : VectorId}
    (hex : (lookupA st.storage id).isSome) :
    IndexSync ⟨st.config, eraseA st.storage id,
      Impl.remove_from_metadata_index st id, Hnsw.markDelete st.hnsw id⟩ := by
  have hmid0 := postings_addMidIdx id hidx hswf
  have hmideq : addMidIdx st id = Impl.remove_from_metadata_index st id := by
    rw [addMidIdx, if_pos hex]
  rw [hmideq] at hmid0
  constructor
  · intro id' vd' hlk' k v hmv
    simp only at hlk' ⊢
    have hne : id' ≠ id := by
      intro hc
      subst hc
      rw [lookupA_eraseA_self _ _ hsnd] at hlk'
      cases hlk'
    rw [lookupA_eraseA_ne _ (fun hc => hne hc.symm)] at hlk'
    obtain ⟨s, hs, hmem⟩ := hsync.1 id' vd' hlk' k v hmv
    rw [hmid0 k v]
    by_cases hold : (k, v) ∈ oldMetaOf st id
    · rw [if_pos hold, hs]
      have hmem' : id' ∈ s.erase id := Finset.mem_erase.mpr ⟨hne, hmem⟩
      have hnemp : ¬ s.erase id = ∅ := by
        intro hc
        rw [hc] at hmem'
        simp at hmem'
      simp only [hnemp, if_neg, if_false]
      exact ⟨_, rfl, hmem'⟩
    · rw [if_neg hold]
      exact ⟨s, hs, hmem⟩
  · intro k v s hps id' hid'
    simp only at hps ⊢
    rw [hmid0 k v] at hps
    by_cases hold : (k, v) ∈ oldMetaOf st id
    · rw [if_pos hold] at hps
      cases hops : postings st.metadata_index k v with
      | none => rw [hops] at hps; cases hps
      | some s0 =>
          rw [hops] at hps
          by_cases hemp : s0.erase id = ∅
          · simp only [hemp, if_pos] at hps
            cases hps
          · simp only [hemp, if_neg, if_false] at hps
            obtain rfl := Option.some.inj hps
            have h1 := Finset.mem_erase.mp hid'
            obtain ⟨vd0, hlk0, hmv0⟩ := hsync.2 k v s0 hops id' h1.2
            exact ⟨vd0, by
              rw [lookupA_eraseA_ne _ (fun hc => h1.1 hc.symm)]
              exact hlk0, hmv0⟩
    · rw [if_neg hold] at hps
      obtain ⟨vd0, hlk0, hmv0⟩ := hsync.2 k v s hps id' hid'
      have hne : id' ≠ id := by
        intro hc
        subst hc
        exact hold (mem_oldMetaOf.mpr ⟨vd0, hlk0, lookupA_mem hmv0⟩)
      exact ⟨vd0, by
        rw [lookupA_eraseA_ne _ (fun hc => hne hc.symm)]
        exact hlk0, hmv0⟩

theorem IdxWF_addMidIdx {st : ImplState} (hidxwf : IdxWF st.metadata_index)
    (id : VectorId) : IdxWF (addMidIdx st id) := by
  rw [addMidIdx]
  by_cases hex : (lookupA st.storage id).isSome
  · rw [if_pos hex, Impl.remove_from_metadata_index]
    cases hlk : lookupA st.storage id with
    | none => exact hidxwf
    | some vd0 => exact IdxWF_removeFold hidxwf _ _
  · rw [if_neg hex]
    exact hidxwf

theorem FullInv_add {st : ImplState} (hfi : FullInv st) {alloc : Bool}
    {id : VectorId} {vec : Vec} {meta : MetadataL}
    (hid : id < 2 ^ 64) (hv : WFVec vec) (hm : WFMeta meta)
    (hok : (Impl.add alloc st id vec meta).1 = true) :
    FullInv (Impl.add alloc st id vec meta).2 := by
  obtain ⟨⟨hsnd, hswf, hidxwf, hhnsw⟩, hsync⟩ := hfi
  have hswfm : ∀ kv ∈ st.storage, (kv.2.metadata.map Prod.fst).Nodup :=
    fun kv hkv => (hswf kv hkv).2.2.2.1
  by_cases hdim : vec.length ≠ st.config.vector_dim
  · rw [add_eq_dim hdim] at hok
    exact absurd hok (by simp)
  have hdim' := not_ne_iff.mp hdim
  have hcore : ∀ (cfg' : Config) (h' : HnswState),
      InvHnswP (insertA st.storage id ⟨vec, meta⟩) h' →
      FullInv ⟨cfg', insertA st.storage id ⟨vec, meta⟩,
        addPostings (addMidIdx st id) meta id, h'⟩ := by
    intro cfg' h' hinv'
    refine ⟨⟨insertA_keys_nodup _ _ _ hsnd, ?_, ?_, hinv'⟩,
      IndexSync_add_parts hsnd (IdxWF_nodup hidxwf) hswfm hsync hm cfg' h'⟩
    · intro kv hkv
      rcases mem_insertA _ _ _ hkv with h1 | h1
      · exact hswf kv h1
      · subst h1
        exact ⟨hid, hv, hm⟩
    · exact IdxWF_addPostings (IdxWF_addMidIdx hidxwf id) id
        (fun kv hkv => (hm.2.2 kv hkv)) hid
  cases haddp : Hnsw.addPoint (addPreHnsw st id) vec id with
  | some h' =>
      rw [add_eq_direct hdim' haddp]
      exact hcore st.config h'
        (InvHnswP_addPoint_step hsnd (InvHnswP_addPreHnsw hhnsw id) haddp)
  | none =>
      cases alloc with
      | false =>
          rw [add_eq_nalloc hdim' haddp] at hok
          simp at hok
      | true =>
          have hstor2nd : ((insertA st.storage id ⟨vec, meta⟩).map
              Prod.fst).Nodup := insertA_keys_nodup _ _ _ hsnd
          have hlen : (insertA st.storage id ⟨vec, meta⟩).length ≤
              addProposed st id vec meta := by
            have := le_max_right (st.config.max_elements * 2)
              ((insertA st.storage id ⟨vec, meta⟩).length + 10)
            rw [addProposed]
            omega
          have hre_eq := @reinsertAllE_fresh (addProposed st id vec meta) _
            hstor2nd hlen
          have hmem2 : (id, (⟨vec, meta⟩ : VectorData)) ∈
              insertA st.storage id ⟨vec, meta⟩ :=
            lookupA_mem (lookupA_insertA_self _ _ _)
          have hfreshInv := @InvHnswP_fresh _
            (addProposed st id vec meta) hstor2nd
          have hretry := addPoint_noop (hfreshInv _ hmem2).1 (hfreshInv _ hmem2).2
          rw [add_eq_rebuild hdim' haddp hre_eq hretry]
          exact hcore _ _ hfreshInv

theorem FullInv_remove {st : ImplState} (hfi : FullInv st) {id : VectorId}
    (hok : (Impl.remove st id).1 = true) :
    FullInv (Impl.remove st id).2 := by
  obtain ⟨⟨hsnd, hswf, hidxwf, hhnsw⟩, hsync⟩ := hfi
  have hswfm : ∀ kv ∈ st.storage, (kv.2.metadata.map Prod.fst).Nodup :=
    fun kv hkv => (hswf kv hkv).2.2.2.1
  by_cases hex : (lookupA st.storage id).isSome
  · rw [remove_eq_present hex]
    refine ⟨⟨eraseA_keys_nodup _ _ hsnd, ?_, ?_, ?_⟩,
      IndexSync_remove_parts hsnd (IdxWF_nodup hidxwf) hswfm hsync hex⟩
    · intro kv hkv
      exact hswf kv (mem_eraseA _ _ hkv)
    · show IdxWF (Impl.remove_from_metadata_index st id)
      have := IdxWF_addMidIdx hidxwf id
      rw [addMidIdx, if_pos hex] at this
      exact this
    · exact InvHnswP_remove hhnsw hsnd id
  · have hnone : lookupA st.storage id = none := by
      cases hlk : lookupA st.storage id
      · rfl
      · simp [hlk] at hex
    rw [remove_eq_absent hnone] at hok
    simp at hok

theorem FullInv_create (cfg : Config) : FullInv (Impl.create cfg) := by
  refine ⟨⟨by simp [Impl.create], by simp [Impl.create], ?_, ?_⟩, ?_, ?_⟩
  · exact ⟨by simp [Impl.create], by simp [Impl.create]⟩
  · intro kv hkv
    simp [Impl.create] at hkv
  · intro id vd hlk
    simp [Impl.create, lookupA] at hlk
  · intro k v s hps
    simp [Impl.create, postings, lookupA] at hps

theorem reachable_fullInv {st : ImplState} (h : Reachable st) : FullInv st := by
  induction h with
  | create cfg => exact FullInv_create cfg
  | addStep st alloc id vec meta hr hid hv hm hok ih =>
      exact FullInv_add ih hid hv hm hok
  | removeStep st id hr hok ih => exact FullInv_remove ih hok

theorem reachable_structInv {st : ImplState} (h : Reachable st) :
    StructInv st := (reachable_fullInv h).1

/-- The heart of the save/load round trip: loading the bytes of a
successful save, with the HNSW sibling snapshot present, rebuilds exactly
the saved state. -/
theorem load_saveBytes (e : Endian) {st : ImplState}
    (hstruct : StructInv st) (hsize : SizeOk st) :
    Impl.load e (saveBytes e st) (some st.hnsw) = some st := by
  obtain ⟨hsnd, hswf, ⟨hind, hiwf⟩, hhnsw⟩ := hstruct
  obtain ⟨hdim, hmax, hslen, hilen, hinlen, hbl, hbb⟩ := hsize
  have hblob : (writeMetaIdx e st.metadata_index).length < 2 ^ 64 := by
    cases e
    · exact hbl
    · exact hbb
  have hmagic : takeBytes 8 (saveBytes e st) =
      some (oriondb1Magic, write_binary e 4 1 ++ write_config e st.config ++
        writeStorage e st.storage ++
        write_binary e 8 (writeMetaIdx e st.metadata_index).length ++
        writeMetaIdx e st.metadata_index) := by
    rw [saveBytes]
    simp only [List.append_assoc]
    exact takeBytes_append oriondb1Magic _
  rw [Impl.load, hmagic]
  have hver : (1 : Nat) < 256 ^ 4 := by norm_num
  simp only [List.append_assoc, read_binary_write_binary e _ hver]
  rw [if_neg (by simp)]
  rw [read_config_write_config e _ hdim hmax]
  have hcnt : st.storage.length < 256 ^ 8 := lt64_to_256 hslen
  simp only [writeStorage, List.append_assoc, read_binary_write_binary e _ hcnt]
  have hentries := readEntries_body e
    (write_binary e 8 (writeMetaIdx e st.metadata_index).length ++
      writeMetaIdx e st.metadata_index) ([] : List (VectorId × VectorData))
    (by simpa using hsnd) hswf
  simp only [List.nil_append] at hentries
  have htake : takeBytes (writeMetaIdx e st.metadata_index).length
      (writeMetaIdx e st.metadata_index) =
      some (writeMetaIdx e st.metadata_index, []) := by
    have := takeBytes_append (writeMetaIdx e st.metadata_index) []
    simpa using this
  have hne : (writeMetaIdx e st.metadata_index).length ≠ 0 := by
    rw [writeMetaIdx]
    simp [write_binary_length]
  have hocnt : st.metadata_index.length < 256 ^ 8 := lt64_to_256 hilen
  have hout2 : readOuterEntries e st.metadata_index.length []
      ((st.metadata_index.map fun p =>
        write_string e p.1 ++ writeInner e p.2).flatten) =
      some (st.metadata_index, []) := by
    have h0 := readOuterEntries_body e ([] : List Nat) ([] : InvIndex)
      (by simpa using hind)
      (fun p hp => ⟨(hiwf p hp).1, (hinlen p hp).1, (hiwf p hp).2.1,
        (hiwf p hp).2.2.1, fun q hq => ⟨((hiwf p hp).2.2.2 q hq).1.2,
          (hinlen p hp).2 q hq, ((hiwf p hp).2.2.2 q hq).2⟩⟩)
    simpa using h0
  have hblobread : read_binary e 8 (writeMetaIdx e st.metadata_index) =
      some (st.metadata_index.length,
        (st.metadata_index.map fun p =>
          write_string e p.1 ++ writeInner e p.2).flatten) := by
    rw [writeMetaIdx]
    exact read_binary_write_binary e _ hocnt
  simp only [hentries, read_binary_write_binary e _ (lt64_to_256 hblob), htake,
    hne, ite_false, hblobread, hout2, reinsert_noop hhnsw]

/-! ## Claim theorems. -/

/-- C1: for every engine state reachable by successful add/remove
operations (under the size bounds `size_t` typing imposes), saving and
then loading the saved artifacts into a fresh engine yields an engine
whose `count`, `get` (vectors bit-identical, metadata equal under
variant-aware equality) and `query` results — for every graph-search
function, so in particular independently of tie order — coincide
pointwise with the original. -/
theorem c1_save_load_round_trip (e : Endian) (st : ImplState)
    (hr : Reachable st) (hsz : SizeOk st) :
    ∃ st', Impl.load e (Impl.save e st).1 (some (Impl.save e st).2) = some st' ∧
      Impl.count st' = Impl.count st ∧
      (∀ id, Impl.get st' id = Impl.get st id) ∧
      (∀ s q n, Impl.query s st' q n = Impl.query s st q n) ∧
      (∀ s q n f, Impl.queryF s st' q n f = Impl.queryF s st q n f) := by
  refine ⟨st, ?_, rfl, fun _ => rfl, fun _ _ _ => rfl, fun _ _ _ _ => rfl⟩
  have h := load_saveBytes e (reachable_structInv hr) hsz
  exact h

theorem c1_witness :
    ∃ st', Impl.load Endian.little (Impl.save Endian.little stDemo).1
        (some (Impl.save Endian.little stDemo).2) = some st' ∧
      Impl.count st' = Impl.count stDemo ∧
      (∀ id, Impl.get st' id = Impl.get stDemo id) ∧
      (∀ s q n, Impl.query s st' q n = Impl.query s stDemo q n) ∧
      (∀ s q n f, Impl.queryF s st' q n f = Impl.queryF s stDemo q n f) :=
  c1_save_load_round_trip Endian.little stDemo
    (Reachable.addStep (Impl.create ⟨1, 4⟩) true 1 [5] [([107], MetaVal.vInt 3)]
      (Reachable.create ⟨1, 4⟩) (by decide) (by decide) (by decide) (by decide))
    (by decide)

/-- C3: after every sequence of successful add and remove operations the
inverted index and the primary store are mutually consistent — every
stored `(id, k, v)` appears in the posting list of `(k, v)`, every posted
id is live with exactly that pair, and empty inner entries and empty
outer entries have been pruned. -/
theorem c3_index_storage_consistency (st : ImplState) (hr : Reachable st) :
    (∀ id vd, lookupA st.storage id = some vd →
      ∀ k v, lookupA vd.metadata k = some v →
        ∃ s, postings st.metadata_index k v = some s ∧ id ∈ s) ∧
    (∀ p ∈ st.metadata_index, ∀ q ∈ p.2, ∀ id ∈ q.2,
      ∃ vd, lookupA st.storage id = some vd ∧
        lookupA vd.metadata p.1 = some q.1) ∧
    (∀ p ∈ st.metadata_index, p.2 ≠ [] ∧ ∀ q ∈ p.2, q.2 ≠ ∅) := by
  obtain ⟨⟨hsnd, hswf, hidxwf, hhnsw⟩, hsync⟩ := reachable_fullInv hr
  refine ⟨hsync.1, ?_, ?_⟩
  · intro p hp q hq id hid
    exact hsync.2 p.1 q.1 q.2 (postings_of_mem (IdxWF_nodup hidxwf) hp hq) id hid
  · intro p hp
    exact ⟨(hidxwf.2 p hp).2.2.1, fun q hq => ((hidxwf.2 p hp).2.2.2 q hq).1.1⟩

theorem c3_witness :
    (∀ id vd, lookupA stDemo2.storage id = some vd →
      ∀ k v, lookupA vd.metadata k = some v →
        ∃ s, postings stDemo2.metadata_index k v = some s ∧ id ∈ s) ∧
    (∀ p ∈ stDemo2.metadata_index, ∀ q ∈ p.2, ∀ id ∈ q.2,
      ∃ vd, lookupA stDemo2.storage id = some vd ∧
        lookupA vd.metadata p.1 = some q.1) ∧
    (∀ p ∈ stDemo2.metadata_index, p.2 ≠ [] ∧ ∀ q ∈ p.2, q.2 ≠ ∅) :=
  c3_index_storage_consistency stDemo2
    (Reachable.removeStep _ 1
      (Reachable.addStep stDemo true 2 [6] [([107], MetaVal.vInt 3),
          ([108], MetaVal.vStr [97])]
        (Reachable.addStep (Impl.create ⟨1, 4⟩) true 1 [5]
            [([107], MetaVal.vInt 3)]
          (Reachable.create ⟨1, 4⟩) (by decide) (by decide) (by decide)
          (by decide))
        (by decide) (by decide) (by decide) (by decide))
      (by decide))

/-- C2, counterexample: the claim that a failed insert followed by a
failed rebuild leaves the observable state exactly as before the call is
false — on a full one-slot engine, a fresh-id `add` whose rebuild
allocation fails returns `false`, yet `count` has grown and `get` sees
the new record. -/
theorem c2_counterexample :
    (Impl.add false stFull 1 [9] []).1 = false ∧
    Impl.count (Impl.add false stFull 1 [9] []).2 ≠ Impl.count stFull ∧
    Impl.get (Impl.add false stFull 1 [9] []).2 1 = some ([9], []) := by
  decide

/-- C2 (amended): when the graph insertion fails and the rebuild also
fails, `add` returns false and the old GraphIndex stays installed (for a
replacing add its old label was already soft-deleted) and the
InvertedIndex is at its mid-call state (old postings purged for a
replacing add, untouched otherwise) — but the PrimaryStore write is not
rolled back: the new record remains, visible through `get` and
`count`. -/
theorem c2_rebuild_failure_keeps_new_record (st : ImplState) (id : VectorId)
    (vec : Vec) (meta : MetadataL)
    (hdim : vec.length = st.config.vector_dim)
    (hfail : Hnsw.addPoint (addPreHnsw st id) vec id = none) :
    (Impl.add false st id vec meta).1 = false ∧
    (Impl.add false st id vec meta).2.hnsw = addPreHnsw st id ∧
    (Impl.add false st id vec meta).2.config = st.config ∧
    (Impl.add false st id vec meta).2.metadata_index = addMidIdx st id ∧
    (Impl.add false st id vec meta).2.storage =
      insertA st.storage id ⟨vec, meta⟩ ∧
    Impl.get (Impl.add false st id vec meta).2 id = some (vec, meta) ∧
    Impl.count (Impl.add false st id vec meta).2 =
      (insertA st.storage id ⟨vec, meta⟩).length := by
  rw [add_eq_nalloc hdim hfail]
  refine ⟨rfl, rfl, rfl, rfl, rfl, ?_, rfl⟩
  simp [Impl.get, lookupA_insertA_self]

theorem c2_witness :
    (Impl.add false stFull 2 [8] []).1 = false ∧
    (Impl.add false stFull 2 [8] []).2.hnsw = addPreHnsw stFull 2 ∧
    (Impl.add false stFull 2 [8] []).2.config = stFull.config ∧
    (Impl.add false stFull 2 [8] []).2.metadata_index = addMidIdx stFull 2 ∧
    (Impl.add false stFull 2 [8] []).2.storage =
      insertA stFull.storage 2 ⟨[8], []⟩ ∧
    Impl.get (Impl.add false stFull 2 [8] []).2 2 = some ([8], []) ∧
    Impl.count (Impl.add false stFull 2 [8] []).2 =
      (insertA stFull.storage 2 ⟨[8], []⟩).length :=
  c2_rebuild_failure_keeps_new_record stFull 2 [8] [] (by decide) (by decide)

/-- C5, counterexample: the main file a save commits does not begin with
the magic `"ORIONDB2"` followed by format version 2 — it begins with
`"ORIONDB1"` and version 1 — and the HNSW index is not framed inside that
file but written to a persistent sibling artifact. -/
theorem c5_counterexample :
    (Impl.save Endian.little (Impl.create ⟨2, 3⟩)).1.take 12 ≠
      oriondb2Magic ++ write_binary Endian.little 4 2 := by
  decide

/-- C5 (amended): a successful save produces two on-disk artifacts — the
main file at the target path, which begins with the 8-byte magic
`"ORIONDB1"` followed by format version 1 as a `uint32` and carries the
primary store and the framed inverted index, and a persistent sibling
file at `path + ".hnsw"` holding the HNSW index; both are written to
temporary paths and renamed into place at commit. -/
theorem c5_save_layout (e : Endian) (st : ImplState) :
    (Impl.save e st).1.take 8 = oriondb1Magic ∧
    ((Impl.save e st).1.drop 8).take 4 = write_binary e 4 1 ∧
    (Impl.save e st).2 = st.hnsw := by
  refine ⟨?_, ?_, rfl⟩
  · show (saveBytes e st).take 8 = oriondb1Magic
    rw [saveBytes]
    simp only [List.append_assoc]
    exact List.take_left' rfl
  · show ((saveBytes e st).drop 8).take 4 = write_binary e 4 1
    rw [saveBytes]
    simp only [List.append_assoc]
    rw [List.drop_left' (show oriondb1Magic.length = 8 from rfl)]
    exact List.take_left' (write_binary_length e 4 1)

/-- C7, counterexample: the claim that the codec emits the same bytes on
every host is false — the same `uint32` value 1 is laid out differently
by a little-endian and a big-endian host, because `write_binary` performs
a raw byte store with no swap. -/
theorem c7_counterexample :
    write_binary Endian.big 4 1 ≠ write_binary Endian.little 4 1 := by
  decide

/-- C7 (amended): `write_binary` emits the raw host-order bytes of a
fixed-width value with no byte swap — little-endian order on a
little-endian host and big-endian order (the reverse) on a big-endian
host — and `read_binary` on the same host inverts it; the wire encoding
is therefore host-dependent, not little-endian everywhere. -/
theorem c7_host_order_codec (w v : Nat) (rest : List Nat) :
    write_binary Endian.little w v = leBytes w v ∧
    write_binary Endian.big w v = (leBytes w v).reverse ∧
    (v < 256 ^ w → ∀ e : Endian,
      read_binary e w (write_binary e w v ++ rest) = some (v, rest)) := by
  exact ⟨rfl, rfl, fun h e => read_binary_write_binary e rest h⟩

theorem c7_witness :
    read_binary Endian.big 4 (write_binary Endian.big 4 1 ++ [7]) =
      some (1, [7]) :=
  (c7_host_order_codec 4 1 [7]).2.2 (by decide) Endian.big

/-- C8: when `add` hits a capacity-exceeded failure from the graph index,
the engine rebuilds with capacity exactly
`max(old_capacity * 2, len(PrimaryStore) + 10)` (the store already holds
the new record at that point), re-inserts every `(id, vector)` of the
primary store into the fresh index, retries the failed insertion once,
and the add succeeds with the stored capacity set to the new value. -/
theorem c8_capacity_rebuild (st : ImplState) (id : VectorId) (vec : Vec)
    (meta : MetadataL)
    (hnd : (st.storage.map Prod.fst).Nodup)
    (hdim : vec.length = st.config.vector_dim)
    (hfail : Hnsw.addPoint (addPreHnsw st id) vec id = none) :
    (Impl.add true st id vec meta).1 = true ∧
    (Impl.add true st id vec meta).2.config.max_elements =
      max (st.config.max_elements * 2)
        ((insertA st.storage id ⟨vec, meta⟩).length + 10) ∧
    (Impl.add true st id vec meta).2.hnsw.capacity =
      addProposed st id vec meta ∧
    (Impl.add true st id vec meta).2.hnsw.slots =
      (insertA st.storage id ⟨vec, meta⟩).map
        (fun kv => ⟨kv.1, kv.2.vector, false⟩) ∧
    (Impl.add true st id vec meta).2.storage =
      insertA st.storage id ⟨vec, meta⟩ := by
  have hstor2nd : ((insertA st.storage id ⟨vec, meta⟩).map Prod.fst).Nodup :=
    insertA_keys_nodup _ _ _ hnd
  have hlen : (insertA st.storage id ⟨vec, meta⟩).length ≤
      addProposed st id vec meta := by
    have := le_max_right (st.config.max_elements * 2)
      ((insertA st.storage id ⟨vec, meta⟩).length + 10)
    rw [addProposed]
    omega
  have hre_eq := @reinsertAllE_fresh (addProposed st id vec meta) _
    hstor2nd hlen
  have hmem2 : (id, (⟨vec, meta⟩ : VectorData)) ∈
      insertA st.storage id ⟨vec, meta⟩ :=
    lookupA_mem (lookupA_insertA_self _ _ _)
  have hfreshInv := @InvHnswP_fresh _ (addProposed st id vec meta) hstor2nd
  have hretry := addPoint_noop (hfreshInv _ hmem2).1 (hfreshInv _ hmem2).2
  rw [add_eq_rebuild hdim hfail hre_eq hretry]
  exact ⟨rfl, rfl, rfl, rfl, rfl⟩

theorem c8_witness :
    (Impl.add true stFull 3 [6] []).1 = true ∧
    (Impl.add true stFull 3 [6] []).2.config.max_elements =
      max (stFull.config.max_elements * 2)
        ((insertA stFull.storage 3 ⟨[6], []⟩).length + 10) ∧
    (Impl.add true stFull 3 [6] []).2.hnsw.capacity =
      addProposed stFull 3 [6] [] ∧
    (Impl.add true stFull 3 [6] []).2.hnsw.slots =
      (insertA stFull.storage 3 ⟨[6], []⟩).map
        (fun kv => ⟨kv.1, kv.2.vector, false⟩) ∧
    (Impl.add true stFull 3 [6] []).2.storage =
      insertA stFull.storage 3 ⟨[6], []⟩ :=
  c8_capacity_rebuild stFull 3 [6] [] (by decide) (by decide) (by decide)

/-- C10: every public operation on a default-constructed or moved-from
`Database` handle (null `pimpl`) returns its negative result: `save`,
`add` and `remove` report `false`, both query overloads return the empty
list, `get` returns nothing, and `count` returns 0. -/
theorem c10_null_handle_ops (e : Endian) (alloc : Bool) (s : SearchFn)
    (q : Vec) (n : Nat) (f : MetadataL) (id : VectorId) (vec : Vec)
    (meta : MetadataL) (d : DB) :
    DB.save e DB.nullHandle = (false, none) ∧
    DB.add alloc DB.nullHandle id vec meta = (false, none) ∧
    DB.query s DB.nullHandle q n = [] ∧
    DB.queryF s DB.nullHandle q n f = [] ∧
    DB.get DB.nullHandle id = none ∧
    DB.remove DB.nullHandle id = (false, none) ∧
    DB.count DB.nullHandle = 0 ∧
    DB.save e (DB.moveFrom d).2 = (false, none) ∧
    DB.add alloc (DB.moveFrom d).2 id vec meta = (false, none) ∧
    DB.query s (DB.moveFrom d).2 q n = [] ∧
    DB.queryF s (DB.moveFrom d).2 q n f = [] ∧
    DB.get (DB.moveFrom d).2 id = none ∧
    DB.remove (DB.moveFrom d).2 id = (false, none) ∧
    DB.count (DB.moveFrom d).2 = 0 := by
  exact ⟨rfl, rfl, rfl, rfl, rfl, rfl, rfl, rfl, rfl, rfl, rfl, rfl, rfl, rfl⟩

/-- C4 (code defect): `add` with a wrong-length vector returns false
without touching the state, and the unfiltered `query` returns empty —
but the filtered overload performs no dimension check of its own: with a
non-empty filter whose posting lookups succeed, the engine reaches the
graph search with the mismatched query vector (an out-of-bounds read in
the C++ distance kernel) instead of returning the empty list. -/
theorem c4_filtered_query_skips_dimension_check :
    ([5] : Vec).length ≠ stC4.config.vector_dim ∧
    Impl.add true stC4 9 [5] [] = (false, stC4) ∧
    Impl.query sProbe stC4 [5] 1 = [] ∧
    Impl.queryF sProbe stC4 [5] 1 [([107], MetaVal.vInt 1)] =
      sProbe stC4.hnsw [5] 1 (fun l => decide (l ∈ ({1} : Finset Nat))) ∧
    Impl.queryF sProbe stC4 [5] 1 [([107], MetaVal.vInt 1)] ≠ [] := by
  decide

/-- C6, counterexample: the claim that `load` rejects every unsupported
format version is false — a file with the recognised magic but version
field 7 (the only version ever written is 1) loads successfully and
returns a handle. -/
theorem c6_counterexample :
    (Impl.load Endian.little c6PatchedBytes none).isSome = true := by
  decide

/-- C6 (amended): `load` validates the magic only.  Every input whose
first 8 bytes differ from `"ORIONDB1"` (including short files) yields no
handle; the format-version field is read but never checked, so
overwriting it with any value leaves the result of `load` unchanged. -/
theorem c6_magic_checked_version_ignored :
    (∀ (e : Endian) (bytes : List Nat) (side : Option HnswState),
      bytes.take 8 ≠ oriondb1Magic → Impl.load e bytes side = none) ∧
    (∀ (e : Endian) (v : Nat) (bytes : List Nat) (side : Option HnswState),
      12 ≤ bytes.length →
      Impl.load e (bytes.take 8 ++ write_binary e 4 v ++ bytes.drop 12) side =
        Impl.load e bytes side) := by
  constructor
  · intro e bytes side hmag
    rw [Impl.load]
    cases htb : takeBytes 8 bytes with
    | none => rfl
    | some p =>
        obtain ⟨m, r0⟩ := p
        have hm : m = bytes.take 8 := by
          rw [takeBytes] at htb
          by_cases hlen : 8 ≤ bytes.length
          · rw [if_pos hlen] at htb
            exact (Prod.mk.injEq .. ▸ Option.some.inj htb).1.symm
          · rw [if_neg hlen] at htb
            cases htb
        subst hm
        cases hrb : read_binary e 4 r0 with
        | none => simp only [hrb]
        | some p1 =>
            obtain ⟨ver, r1⟩ := p1
            simp only [hrb, if_pos hmag]
  · intro e v bytes side hlen
    have h8 : (bytes.take 8).length = 8 := by
      rw [List.length_take]
      omega
    have htb1 : takeBytes 8 (bytes.take 8 ++
        (write_binary e 4 v ++ bytes.drop 12)) =
        some (bytes.take 8, write_binary e 4 v ++ bytes.drop 12) := by
      have h := takeBytes_append (bytes.take 8)
        (write_binary e 4 v ++ bytes.drop 12)
      rwa [h8] at h
    have hrb1 : read_binary e 4 (write_binary e 4 v ++ bytes.drop 12) =
        some (hostVal e (write_binary e 4 v), bytes.drop 12) := by
      have h := takeBytes_append (write_binary e 4 v) (bytes.drop 12)
      rw [write_binary_length] at h
      rw [read_binary]
      simp only [h]
    have htb2 : takeBytes 8 bytes = some (bytes.take 8, bytes.drop 8) := by
      rw [takeBytes, if_pos (by omega)]
    have hrb2 : read_binary e 4 (bytes.drop 8) =
        some (hostVal e ((bytes.drop 8).take 4), bytes.drop 12) := by
      have h : takeBytes 4 (bytes.drop 8) =
          some ((bytes.drop 8).take 4, bytes.drop 12) := by
        rw [takeBytes, if_pos (by rw [List.length_drop]; omega),
          List.drop_drop]
      rw [read_binary]
      simp only [h]
    rw [List.append_assoc, Impl.load, Impl.load]
    simp only [htb1, htb2, hrb1, hrb2]

theorem c6_witness :
    Impl.load Endian.little (List.replicate 12 0) none = none ∧
    Impl.load Endian.little (c6BaseBytes.take 8 ++
        write_binary Endian.little 4 9 ++ c6BaseBytes.drop 12) none =
      Impl.load Endian.little c6BaseBytes none :=
  ⟨c6_magic_checked_version_ignored.1 Endian.little (List.replicate 12 0) none
      (by decide),
    c6_magic_checked_version_ignored.2 Endian.little 9 c6BaseBytes none
      (by decide)⟩

theorem foldl_inter_from_empty {β : Type} (l : List β) (g : β → Finset Nat) :
    l.foldl (fun a kv => a ∩ g kv) ∅ = ∅ := by
  induction l with
  | nil => rfl
  | cons x xs ih =>
      rw [List.foldl_cons, Finset.empty_inter]
      exact ih

theorem queryFilterLoop_some_isSome {idx : InvIndex}
    {rest : List (Str × MetaVal)} {first : Bool} {acc c : Finset Nat}
    (h : Impl.queryFilterLoop idx rest first acc = some c) :
    ∀ kv ∈ rest, (postings idx kv.1 kv.2).isSome := by
  induction rest generalizing first acc with
  | nil =>
      intro kv hkv
      simp at hkv
  | cons kv0 rest ih =>
      obtain ⟨k, v⟩ := kv0
      rw [Impl.queryFilterLoop] at h
      cases hik : lookupA idx k with
      | none =>
          simp only [hik] at h
          exact Option.noConfusion h
      | some inner =>
          simp only [hik] at h
          cases hiv : lookupA inner v with
          | none =>
              simp only [hiv] at h
              exact Option.noConfusion h
          | some ids =>
              simp only [hiv] at h
              by_cases hemp : (if first then ids else acc ∩ ids) = ∅
              · rw [if_pos hemp] at h
                exact Option.noConfusion h
              · rw [if_neg hemp] at h
                intro kv hkv
                rcases List.mem_cons.mp hkv with h1 | h1
                · rw [h1]
                  simp [postings, hik, hiv]
                · exact ih h kv h1

theorem queryFilterLoop_char {idx : InvIndex} (rest : List (Str × MetaVal))
    (acc : Finset Nat) (hne : acc ≠ ∅)
    (hall : ∀ kv ∈ rest, (postings idx kv.1 kv.2).isSome) :
    Impl.queryFilterLoop idx rest false acc =
      (if rest.foldl (fun a kv => a ∩ (postings idx kv.1 kv.2).getD ∅) acc = ∅
       then none
       else some (rest.foldl
         (fun a kv => a ∩ (postings idx kv.1 kv.2).getD ∅) acc)) := by
  induction rest generalizing acc with
  | nil => simp [Impl.queryFilterLoop, hne]
  | cons kv0 rest ih =>
      obtain ⟨k, v⟩ := kv0
      obtain ⟨s0, hs0⟩ := Option.isSome_iff_exists.mp
        (hall (k, v) (List.mem_cons_self _ _))
      have hik : ∃ inner, lookupA idx k = some inner ∧
          lookupA inner v = some s0 := by
        rw [postings] at hs0
        cases hik : lookupA idx k with
        | none => rw [hik] at hs0; cases hs0
        | some inner =>
            rw [hik] at hs0
            simp only [Option.some_bind] at hs0
            exact ⟨inner, rfl, hs0⟩
      obtain ⟨inner, hik1, hiv1⟩ := hik
      have hgd : (postings idx k v).getD ∅ = s0 := by rw [hs0]; rfl
      rw [Impl.queryFilterLoop, List.foldl_cons, hgd]
      simp only [hik1, hiv1, Bool.false_eq_true, if_false]
      by_cases hemp : acc ∩ s0 = ∅
      · rw [if_pos hemp, hemp, foldl_inter_from_empty]
        simp
      · rw [if_neg hemp]
        exact ih (acc ∩ s0) hemp (fun kv hkv => hall kv (List.mem_cons_of_mem _ hkv))

/-- C9: filtered query semantics.  An empty filter delegates to the
unfiltered query; if any filter key or value has no posting list the
result is empty; otherwise the eligible candidate set passed to the graph
search is exactly the intersection of the posting lists of all the filter
clauses (with the empty intersection short-circuiting to the empty
result, no search performed). -/
theorem c9_filter_semantics (s : SearchFn) (st : ImplState) (q : Vec) (n : Nat)
    (filter : MetadataL) :
    (Impl.queryF s st q n [] = Impl.query s st q n) ∧
    (filter ≠ [] →
      (∃ kv ∈ filter, postings st.metadata_index kv.1 kv.2 = none) →
      Impl.queryF s st q n filter = []) ∧
    (filter ≠ [] →
      (∀ kv ∈ filter, (postings st.metadata_index kv.1 kv.2).isSome) →
      Impl.queryF s st q n filter =
        (if interList (filter.map fun kv =>
            (postings st.metadata_index kv.1 kv.2).getD ∅) = ∅ then []
         else s st.hnsw q n fun l => decide (l ∈ interList
           (filter.map fun kv =>
             (postings st.metadata_index kv.1 kv.2).getD ∅)))) := by
  refine ⟨by rw [Impl.queryF, if_pos rfl], ?_, ?_⟩
  · intro hne hmiss
    rw [Impl.queryF, if_neg hne]
    cases hloop : Impl.queryFilterLoop st.metadata_index filter true ∅ with
    | none => rfl
    | some c =>
        obtain ⟨kv, hkv, hnone⟩ := hmiss
        have := queryFilterLoop_some_isSome hloop kv hkv
        rw [hnone] at this
        cases this
  · intro hne hall
    rw [Impl.queryF, if_neg hne]
    cases filter with
    | nil => exact absurd rfl hne
    | cons kv0 rest =>
        obtain ⟨k, v⟩ := kv0
        obtain ⟨s0, hs0⟩ := Option.isSome_iff_exists.mp
          (hall (k, v) (List.mem_cons_self _ _))
        have hik : ∃ inner, lookupA st.metadata_index k = some inner ∧
            lookupA inner v = some s0 := by
          rw [postings] at hs0
          cases hik : lookupA st.metadata_index k with
          | none => rw [hik] at hs0; cases hs0
          | some inner =>
              rw [hik] at hs0
              simp only [Option.some_bind] at hs0
              exact ⟨inner, rfl, hs0⟩
        obtain ⟨inner, hik1, hiv1⟩ := hik
        have hgd : (postings st.metadata_index k v).getD ∅ = s0 := by
          rw [hs0]
          rfl
        have hint : interList (((k, v) :: rest).map fun kv =>
            (postings st.metadata_index kv.1 kv.2).getD ∅) =
            rest.foldl (fun a kv =>
              a ∩ (postings st.metadata_index kv.1 kv.2).getD ∅) s0 := by
          rw [List.map_cons, interList, hgd, List.foldl_map]
        rw [Impl.queryFilterLoop]
        simp only [hik1, hiv1, if_true]
        by_cases hs0e : s0 = ∅
        · rw [if_pos hs0e, hint, hs0e, foldl_inter_from_empty]
          simp
        · rw [if_neg hs0e, queryFilterLoop_char rest s0 hs0e
            (fun kv hkv => hall kv (List.mem_cons_of_mem _ hkv)), hint]
          by_cases hF : rest.foldl (fun a kv =>
              a ∩ (postings st.metadata_index kv.1 kv.2).getD ∅) s0 = ∅
          · rw [if_pos hF, if_pos hF]
          · rw [if_neg hF, if_neg hF]

theorem c9_witness :
    Impl.queryF sProbe stC9 [3, 4] 2 [([107], MetaVal.vInt 1)] =
      (if interList ([([107], MetaVal.vInt 1)].map fun kv =>
          (postings stC9.metadata_index kv.1 kv.2).getD ∅) = ∅ then []
       else sProbe stC9.hnsw [3, 4] 2 fun l => decide (l ∈ interList
         ([([107], MetaVal.vInt 1)].map fun kv =>
           (postings stC9.metadata_index kv.1 kv.2).getD ∅))) :=
  (c9_filter_semantics sProbe stC9 [3, 4] 2 [([107], MetaVal.vInt 1)]).2.2
    (by decide) (by decide)

end Orion
